import Mathlib

/-!
Verification of the Polymarket insider-detection core.

The Python source is embedded shallowly:

* Python dicts (which preserve insertion order and update values in place)
  become association lists over String keys, with the operations lookupA
  (first match), insertA (update in place or append) and appendA
  (defaultdict-of-list append).
* Python floats become exact rationals; timestamps become rational
  seconds, so a timedelta's total_seconds is a plain difference.
* Methods that mutate an object return the updated object explicitly.
* Human-readable message/narrative formatting is out of scope and not
  modelled; the transcendental sinusoidal basis of the sequence encoder
  is modelled as abstract signal functions carried by the module, since
  no exact-arithmetic counterpart of math.sin exists.
-/

namespace InsiderDetection

/-- First-match lookup in an association list, the semantics of a Python
dict read (keys are unique in every dict this development builds). -/
def lookupA {β : Type} : List (String × β) → String → Option β
  | [], _ => none
  | (k, v) :: rest, key => if k = key then some v else lookupA rest key

/-- Python dict assignment d[k] = v: update the value in place when the
key is present, otherwise append the new binding at the end. -/
def insertA {β : Type} : List (String × β) → String → β → List (String × β)
  | [], key, v => [(key, v)]
  | (k, w) :: rest, key, v =>
    if k = key then (k, v) :: rest else (k, w) :: insertA rest key v

/-- Python defaultdict(list) append d[k].append(v). -/
def appendA {β : Type} : List (String × List β) → String → β → List (String × List β)
  | [], key, v => [(key, [v])]
  | (k, vs) :: rest, key, v =>
    if k = key then (k, vs ++ [v]) :: rest else (k, vs) :: appendA rest key v

/-- statistics.mean of a list of values (all call sites guard against
emptiness, matching the Python precondition). -/
def mean (xs : List ℚ) : ℚ := xs.sum / xs.length

/-- Keys of an association list, in insertion order. -/
def keysA {β : Type} (l : List (String × β)) : List String := l.map Prod.fst

/-- data_ingestion.TradeEvent: one trade record; the timestamp is
rational seconds. -/
structure TradeEvent where
  trade_id : String
  account_id : String
  market_id : String
  timestamp : ℚ
  outcome : String
  size : ℚ
  price : ℚ
deriving Repr, DecidableEq

/-- feature_store.FeatureVector: computed features for an entity. -/
structure FeatureVector where
  entity_id : String
  features : List (String × ℚ)
  as_of : ℚ
deriving Repr, DecidableEq

/-- model_zoo.ModelPrediction: one model's output for one entity. -/
structure ModelPrediction where
  model_name : String
  entity_id : String
  score : ℚ
  metadata : List (String × ℚ)
deriving Repr, DecidableEq

/-- ensemble.EnsembleScore: combined score plus per-model breakdown. -/
structure EnsembleScore where
  entity_id : String
  score : ℚ
  breakdown : List (String × ℚ)
deriving Repr, DecidableEq

/-- anomaly_module.AnomalyScore. -/
structure AnomalyScore where
  entity_id : String
  detector_name : String
  score : ℚ
deriving Repr, DecidableEq

/-- interfaces.alerts.Alert (the formatted message string is a pure
formatting concern and is not modelled). -/
structure Alert where
  entity_id : String
  score : ℚ
  severity : String
deriving Repr, DecidableEq

/-! ## ensemble.EnsembleCombiner -/

/-- ensemble.EnsembleCombiner: configuration is the weight mapping. -/
structure EnsembleCombiner where
  weights : List (String × ℚ)

namespace EnsembleCombiner

/-- EnsembleCombiner._weighted_average. -/
def weightedAverage (c : EnsembleCombiner) (model_scores : List (String × ℚ)) : ℚ :=
  if model_scores = [] then 0
  else if c.weights = [] then mean (model_scores.map Prod.snd)
  else
    let total_weight := (model_scores.map (fun p => (lookupA c.weights p.1).getD 0)).sum
    let weighted_sum :=
      (model_scores.map (fun p => (lookupA c.weights p.1).getD 0 * p.2)).sum
    if total_weight ≠ 0 then weighted_sum / total_weight
    else mean (model_scores.map Prod.snd)

/-- The grouping loop of EnsembleCombiner.combine:
grouped[prediction.entity_id][prediction.model_name] = prediction.score. -/
def groupPredictions (predictions : List ModelPrediction) :
    List (String × List (String × ℚ)) :=
  predictions.foldl
    (fun grouped p =>
      insertA grouped p.entity_id
        (insertA ((lookupA grouped p.entity_id).getD []) p.model_name p.score))
    []

/-- EnsembleCombiner.combine. -/
def combine (c : EnsembleCombiner) (predictions : List ModelPrediction) :
    List EnsembleScore :=
  (groupPredictions predictions).map
    (fun p => ⟨p.1, c.weightedAverage p.2, p.2⟩)

/-- The grouping loop of EnsembleCombiner.aggregate_statistics:
by_model[prediction.model_name].append(prediction.score). -/
def groupByModel (predictions : List ModelPrediction) : List (String × List ℚ) :=
  predictions.foldl (fun by_model p => appendA by_model p.model_name p.score) []

/-- EnsembleCombiner.aggregate_statistics. -/
def aggregateStatistics (_c : EnsembleCombiner) (predictions : List ModelPrediction) :
    List (String × ℚ) :=
  ((groupByModel predictions).filter (fun p => p.2 ≠ [])).map (fun p => (p.1, mean p.2))

end EnsembleCombiner

/-! ## interfaces.alerts.AlertDispatcher -/

/-- interfaces.alerts.AlertDispatcher: thresholds plus the sink of
dispatched alerts. -/
structure AlertDispatcher where
  critical_threshold : ℚ := 9/10
  high_threshold : ℚ := 7/10
  sent_alerts : List Alert := []

namespace AlertDispatcher

/-- AlertDispatcher._determine_severity. -/
def determineSeverity (d : AlertDispatcher) (score : ℚ) : String :=
  if d.critical_threshold ≤ score then "critical"
  else if d.high_threshold ≤ score then "high"
  else if (1 : ℚ)/2 ≤ score then "medium"
  else "info"

/-- AlertDispatcher.create_alerts. -/
def createAlerts (d : AlertDispatcher) (ensemble_scores : List EnsembleScore) :
    List Alert :=
  ensemble_scores.foldl
    (fun alerts s =>
      let severity := d.determineSeverity s.score
      if severity = "info" then alerts
      else alerts ++ [⟨s.entity_id, s.score, severity⟩])
    []

/-- AlertDispatcher.dispatch appends to the observable sink. -/
def dispatch (d : AlertDispatcher) (alerts : List Alert) : AlertDispatcher :=
  { d with sent_alerts := d.sent_alerts ++ alerts }

end AlertDispatcher

/-! ## graph_module -/

/-- graph_module.GraphEdge. -/
structure GraphEdge where
  source : String
  target : String
  weight : ℚ
deriving Repr, DecidableEq

/-- The adjacency accumulator of build_wallet_graph: a dict from node to
a dict from neighbour to accumulated weight. -/
abbrev Adjacency : Type := List (String × List (String × ℚ))

/-- The output shape of build_wallet_graph: node to outgoing edges. -/
abbrev WalletGraph : Type := List (String × List GraphEdge)

/-- Add w to an inner defaultdict(float) entry: edges[target] += w. -/
def bumpA : List (String × ℚ) → String → ℚ → List (String × ℚ)
  | [], key, w => [(key, w)]
  | (k, v) :: rest, key, w =>
    if k = key then (k, v + w) :: rest else (k, v) :: bumpA rest key w

/-- adjacency[src][tgt] += w with defaultdict semantics on both levels. -/
def addWeight : Adjacency → String → String → ℚ → Adjacency
  | [], src, tgt, w => [(src, [(tgt, w)])]
  | (k, es) :: rest, src, tgt, w =>
    if k = src then (k, bumpA es tgt w) :: rest
    else (k, es) :: addWeight rest src tgt w

/-- graph_module.GraphModule: configuration is the edge threshold. -/
structure GraphModule where
  threshold : ℚ := 7/10

namespace GraphModule

/-- GraphModule._co_trading_weight. -/
def coTradingWeight (_g : GraphModule) (a b : TradeEvent) : ℚ :=
  let same_direction : ℚ := if a.outcome = b.outcome then 1 else 1/2
  let size_similarity : ℚ := 1 - |a.size - b.size| / max (max a.size b.size) 1
  let time_gap : ℚ := |a.timestamp - b.timestamp| + 1
  same_direction * size_similarity / time_gap

/-- trades_by_market grouping loop of build_wallet_graph. -/
def groupByMarket (trades : List TradeEvent) : List (String × List TradeEvent) :=
  trades.foldl (fun acc t => appendA acc t.market_id t) []

/-- The ordered unordered-pair enumeration of build_wallet_graph:
for i, trade_i in enumerate(market_trades): for trade_j in market_trades[i+1:]. -/
def tradePairs : List TradeEvent → List (TradeEvent × TradeEvent)
  | [] => []
  | t :: rest => rest.map (fun u => (t, u)) ++ tradePairs rest

/-- One qualifying-pair update of the adjacency accumulator. -/
def addPair (g : GraphModule) (adj : Adjacency) (p : TradeEvent × TradeEvent) :
    Adjacency :=
  let weight := g.coTradingWeight p.1 p.2
  if g.threshold ≤ weight then
    addWeight (addWeight adj p.1.account_id p.2.account_id weight)
      p.2.account_id p.1.account_id weight
  else adj

/-- The adjacency accumulator built by GraphModule.build_wallet_graph. -/
def buildAdjacency (g : GraphModule) (trades : List TradeEvent) : Adjacency :=
  (groupByMarket trades).foldl
    (fun adj m => (tradePairs m.2).foldl (fun adj p => g.addPair adj p) adj)
    []

/-- GraphModule.build_wallet_graph. -/
def buildWalletGraph (g : GraphModule) (trades : List TradeEvent) : WalletGraph :=
  (g.buildAdjacency trades).map
    (fun n => (n.1, n.2.map (fun e => GraphEdge.mk n.1 e.1 e.2)))

/-- The neighbour scan inside the BFS of detect_communities: enqueue and
mark every not-yet-visited target. -/
def scanNeighbors (edges : List GraphEdge) (queue visited : List String) :
    List String × List String :=
  edges.foldl
    (fun qv e =>
      if e.target ∈ qv.2 then qv else (qv.1 ++ [e.target], qv.2 ++ [e.target]))
    (queue, visited)

/-- The inner while-queue loop of detect_communities, with explicit fuel
(detectCommunities supplies enough fuel for the queue to drain; see
bfsLoop_spec). Returns the community together with the visited set. -/
def bfsLoop (graph : WalletGraph) :
    Nat → List String → List String → List String → List String × List String
  | 0, _, visited, community => (community, visited)
  | _ + 1, [], visited, community => (community, visited)
  | fuel + 1, current :: queue, visited, community =>
    let qv := scanNeighbors ((lookupA graph current).getD []) queue visited
    bfsLoop graph fuel qv.1 qv.2 (community ++ [current])

/-- The outer for-node loop of detect_communities. -/
def communitiesLoop (graph : WalletGraph) (fuel : Nat) :
    List (String × List GraphEdge) → List String → List (List String)
  | [], _ => []
  | (node, _) :: rest, visited =>
    if node ∈ visited then communitiesLoop graph fuel rest visited
    else
      let cv := bfsLoop graph fuel [node] (visited ++ [node]) []
      cv.1 :: communitiesLoop graph fuel rest cv.2

/-- Every node name occurring in the graph, keys and edge targets alike;
its length bounds the work one BFS can do. -/
def allNodes (graph : WalletGraph) : List String :=
  keysA graph ++ graph.foldr (fun n acc => n.2.map GraphEdge.target ++ acc) []

/-- GraphModule.detect_communities: connected components by BFS, emitted
as lists of member nodes (Python uses sets; each member occurs once). -/
def detectCommunities (_g : GraphModule) (graph : WalletGraph) :
    List (List String) :=
  communitiesLoop graph ((allNodes graph).length + 1) graph []

end GraphModule

/-! ## feature_store.FeatureStore -/

/-- feature_store.FeatureStore: the per-entity history store. -/
structure FeatureStore where
  storage : List (String × List FeatureVector) := []

namespace FeatureStore

/-- FeatureStore._rolling_average. -/
def rollingAverage (store : FeatureStore) (account_id : String) (new_value : ℚ) : ℚ :=
  let history := (lookupA store.storage account_id).getD []
  match history.getLast? with
  | none => new_value
  | some last =>
    1/2 * (lookupA last.features "avg_trade_size").getD new_value + 1/2 * new_value

/-- FeatureStore._profit_proxy. -/
def profitProxy (trade : TradeEvent) : ℚ :=
  let direction : ℚ :=
    if trade.outcome.toLower = "yes" ∨ trade.outcome.toLower = "win" then 1 else -1
  direction * (1 - trade.price)

/-- FeatureStore._time_to_resolution_proxy; with timestamps as rational
seconds, midnight of the timestamp's date is the enclosing multiple of
86400 seconds. -/
def timeToResolutionProxy (trade : TradeEvent) : ℚ :=
  let midnight : ℚ := 86400 * ⌊trade.timestamp / 86400⌋
  let delta := trade.timestamp - midnight
  max delta 1

/-- The per-trade body of FeatureStore.compute_features: build the
feature dict, append the vector to storage and to the output. -/
def computeOne (store : FeatureStore) (computed : List FeatureVector)
    (trade : TradeEvent) : FeatureStore × List FeatureVector :=
  let features : List (String × ℚ) :=
    [("avg_trade_size", store.rollingAverage trade.account_id trade.size),
     ("profit_proxy", profitProxy trade),
     ("time_to_resolution_est", timeToResolutionProxy trade)]
  let vector : FeatureVector := ⟨trade.account_id, features, trade.timestamp⟩
  (⟨appendA store.storage trade.account_id vector⟩, computed ++ [vector])

/-- FeatureStore.compute_features, returning the updated store and the
computed vectors. -/
def computeFeatures (store : FeatureStore) (trades : List TradeEvent) :
    FeatureStore × List FeatureVector :=
  trades.foldl (fun sc t => computeOne sc.1 sc.2 t) (store, [])

/-- FeatureStore.latest_features. -/
def latestFeatures (store : FeatureStore) (entity_id : String) :
    Option FeatureVector :=
  match (lookupA store.storage entity_id).getD [] with
  | [] => none
  | vs => vs.getLast?

end FeatureStore

/-! ## model_zoo -/

/-- model_zoo.PredictiveModel: the structural protocol, embedded as a
name plus a scoring function over a named-feature mapping. -/
structure PredictiveModel where
  name : String
  predict_proba : List (String × ℚ) → ℚ

/-- model_zoo.ModelWrapper. -/
structure ModelWrapper where
  name : String
  model : PredictiveModel
  postprocess : Option (ℚ → ℚ) := none

/-- ModelWrapper.predict. -/
def ModelWrapper.predict (w : ModelWrapper) (feature_vector : FeatureVector) :
    ModelPrediction :=
  let raw_score := w.model.predict_proba feature_vector.features
  let score := match w.postprocess with
    | some f => f raw_score
    | none => raw_score
  ⟨w.name, feature_vector.entity_id, score, [("raw_score", raw_score)]⟩

/-- model_zoo.ModelZoo: the name-keyed registry. -/
structure ModelZoo where
  models : List (String × ModelWrapper) := []

namespace ModelZoo

/-- ModelZoo.register: the duplicate-name check precedes the store, so a
raise (the some case of the returned error) leaves the registry as it
was; on success the new binding is stored under the wrapper's name. -/
def register (zoo : ModelZoo) (wrapper : ModelWrapper) :
    ModelZoo × Option String :=
  if (lookupA zoo.models wrapper.name).isSome then
    (zoo, some ("Model " ++ wrapper.name ++ " already registered"))
  else (⟨zoo.models ++ [(wrapper.name, wrapper)]⟩, none)

/-- ModelZoo.iter_models. -/
def iterModels (zoo : ModelZoo) : List ModelWrapper := zoo.models.map Prod.snd

/-- ModelZoo.get (a missing name raises KeyError, hence the Option). -/
def get (zoo : ModelZoo) (name : String) : Option ModelWrapper :=
  lookupA zoo.models name

end ModelZoo

/-! ## anomaly_module -/

/-- anomaly_module.AnomalyDetector protocol. -/
structure AnomalyDetector where
  name : String
  score : List (String × ℚ) → ℚ

/-- anomaly_module.AnomalyModule. -/
structure AnomalyModule where
  detectors : List AnomalyDetector

/-- AnomalyModule.run. -/
def AnomalyModule.run (m : AnomalyModule) (features : List FeatureVector) :
    List AnomalyScore :=
  features.foldl
    (fun scores v =>
      scores ++ m.detectors.map (fun d => ⟨v.entity_id, d.name, d.score v.features⟩))
    []

/-! ## sequence_module -/

/-- sequence_module.SequenceEmbedding. -/
structure SequenceEmbedding where
  entity_id : String
  values : List ℚ

/-- sequence_module.SequenceModule. The sinusoidal positional basis
(math.sin and math.cos of position / 10000 ^ (2*(idx/2)/dim)) is
transcendental, so the per-position per-dimension signal is carried as
an abstract function of (position, dimension index). -/
structure SequenceModule where
  embedding_dim : Nat := 8
  signal : Nat → Nat → ℚ

namespace SequenceModule

/-- SequenceModule._positional_encoding: sum the positional signal over
the timestamp-sorted trade sequence, one accumulator per dimension. -/
def positionalEncoding (m : SequenceModule) (trades : List TradeEvent) : List ℚ :=
  let sorted := trades.mergeSort (fun a b => a.timestamp ≤ b.timestamp)
  (List.range m.embedding_dim).map
    (fun idx => ((List.range sorted.length).map (fun position => m.signal position idx)).sum)

/-- SequenceModule.encode: group trades by account (insertion order),
then encode each account's sequence. -/
def encode (m : SequenceModule) (trades : List TradeEvent) :
    List SequenceEmbedding :=
  let sequences := trades.foldl (fun acc t => appendA acc t.account_id t) []
  sequences.map (fun s => ⟨s.1, m.positionalEncoding s.2⟩)

/-- SequenceModule.enrich_features: merge each entity's embedding into
its feature vectors, one new positionally-named feature per dimension. -/
def enrichFeatures (_m : SequenceModule) (features : List FeatureVector)
    (embeddings : List SequenceEmbedding) : List FeatureVector :=
  let embed_lookup :=
    embeddings.foldl (fun acc e => insertA acc e.entity_id e) []
  features.map
    (fun vector =>
      match lookupA embed_lookup vector.entity_id with
      | some embedding =>
        let augmented := (List.range embedding.values.length).foldl
          (fun acc idx =>
            insertA acc ("seq_" ++ toString idx) (embedding.values.getD idx 0))
          vector.features
        ⟨vector.entity_id, augmented, vector.as_of⟩
      | none => vector)

end SequenceModule

/-! ## explainability -/

/-- explainability.Explanation (the narrative string is a pure
formatting concern and is not modelled). -/
structure Explanation where
  entity_id : String
  top_features : List String
deriving Repr, DecidableEq

/-- explainability.ExplainabilityModule (it holds no configuration). -/
structure ExplainabilityModule where
  dummy : Unit := ()

/-- ExplainabilityModule.build_explanations: the three feature names of
largest absolute value, sorted descending (Python's sorted is stable, as
is mergeSort). -/
def ExplainabilityModule.buildExplanations (_m : ExplainabilityModule)
    (features : List (String × ℚ)) (ensemble_score : EnsembleScore) : Explanation :=
  let sorted_features := features.mergeSort (fun a b => |b.2| ≤ |a.2|)
  ⟨ensemble_score.entity_id, (sorted_features.take 3).map Prod.fst⟩

/-! ## data_ingestion.DataIngestion -/

/-- data_ingestion.DataIngestion: sources are opaque producers, so the
ingestion layer is modelled as the concatenated stream it yields. -/
structure DataIngestion where
  recent_trades : List TradeEvent := []

/-- DataIngestion.get_recent_trades. -/
def DataIngestion.getRecentTrades (d : DataIngestion) : List TradeEvent :=
  d.recent_trades

/-! ## pipeline.InsiderDetectionPipeline -/

/-- pipeline.InsiderDetectionPipeline: components plus retained run
state. -/
structure InsiderDetectionPipeline where
  data_ingestion : DataIngestion
  feature_store : FeatureStore
  model_zoo : ModelZoo
  ensemble : EnsembleCombiner
  alert_dispatcher : AlertDispatcher
  sequence_module : Option SequenceModule := none
  graph_module : Option GraphModule := none
  anomaly_module : Option AnomalyModule := none
  explainability : Option ExplainabilityModule := none
  markets_of_interest : Option (List String) := none
  alerts : List Alert := []
  explanations : List Explanation := []
  anomaly_scores : List AnomalyScore := []

namespace InsiderDetectionPipeline

/-- InsiderDetectionPipeline._load_trade_events. -/
def loadTradeEvents (p : InsiderDetectionPipeline) : List TradeEvent :=
  match p.markets_of_interest with
  | none => p.data_ingestion.getRecentTrades
  | some markets =>
    p.data_ingestion.getRecentTrades.filter (fun t => t.market_id ∈ markets)

/-- InsiderDetectionPipeline._enrich_with_sequences. -/
def enrichWithSequences (p : InsiderDetectionPipeline) (trades : List TradeEvent)
    (features : List FeatureVector) : List FeatureVector :=
  match p.sequence_module with
  | none => features
  | some m => m.enrichFeatures features (m.encode trades)

/-- InsiderDetectionPipeline._generate_predictions. -/
def generatePredictions (p : InsiderDetectionPipeline)
    (feature_vectors : List FeatureVector) : List ModelPrediction :=
  feature_vectors.foldl
    (fun predictions features =>
      predictions ++ p.model_zoo.iterModels.map (fun model => model.predict features))
    []

/-- InsiderDetectionPipeline._run_anomaly_detectors. -/
def runAnomalyDetectors (p : InsiderDetectionPipeline)
    (feature_vectors : List FeatureVector) : List AnomalyScore :=
  match p.anomaly_module with
  | none => []
  | some m => m.run feature_vectors

/-- InsiderDetectionPipeline._build_explanations. -/
def buildExplanationsFor (p : InsiderDetectionPipeline)
    (feature_vectors : List FeatureVector) (scores : List EnsembleScore) :
    List Explanation :=
  match p.explainability with
  | none => []
  | some m =>
    let feature_lookup :=
      feature_vectors.foldl (fun acc v => insertA acc v.entity_id v) []
    scores.foldl
      (fun explanations score =>
        match lookupA feature_lookup score.entity_id with
        | none => explanations
        | some vector =>
          explanations ++ [m.buildExplanations vector.features score])
      []

/-- InsiderDetectionPipeline.run_inference, returning the updated
pipeline state alongside the alert list. -/
def runInference (p : InsiderDetectionPipeline) :
    InsiderDetectionPipeline × List Alert :=
  let trade_events := p.loadTradeEvents
  let sv := p.feature_store.computeFeatures trade_events
  let feature_vectors := p.enrichWithSequences trade_events sv.2
  let predictions := p.generatePredictions feature_vectors
  let anomaly_scores := p.runAnomalyDetectors feature_vectors
  let combined_scores := p.ensemble.combine predictions
  let explanations := p.buildExplanationsFor feature_vectors combined_scores
  let alerts := p.alert_dispatcher.createAlerts combined_scores
  ({ p with
      feature_store := sv.1
      anomaly_scores := anomaly_scores
      explanations := explanations
      alerts := alerts
      alert_dispatcher := p.alert_dispatcher.dispatch alerts },
   alerts)

/-- InsiderDetectionPipeline.run_backtest, returning the updated
pipeline state alongside the metrics mapping. -/
def runBacktest (p : InsiderDetectionPipeline) (historical_trades : List TradeEvent) :
    InsiderDetectionPipeline × List (String × ℚ) :=
  let sv := p.feature_store.computeFeatures historical_trades
  let feature_vectors := p.enrichWithSequences historical_trades sv.2
  let predictions := p.generatePredictions feature_vectors
  let metrics := p.ensemble.aggregateStatistics predictions
  let metrics := match p.graph_module with
    | none => metrics
    | some gm =>
      insertA metrics "communities_detected"
        ((gm.detectCommunities (gm.buildWalletGraph historical_trades)).length : ℚ)
  let anomaly_scores := p.runAnomalyDetectors feature_vectors
  let metrics :=
    if anomaly_scores ≠ [] then
      insertA metrics "avg_anomaly_score"
        ((anomaly_scores.map AnomalyScore.score).sum / anomaly_scores.length)
    else metrics
  ({ p with feature_store := sv.1 }, metrics)

end InsiderDetectionPipeline

/-- The score of the last prediction in iteration order for a given
(entity, model) pair, if any: the value Python's last dict write wins
with. -/
def lastPredScore (predictions : List ModelPrediction) (e m : String) : Option ℚ :=
  ((predictions.filter (fun p => p.entity_id = e ∧ p.model_name = m)).getLast?).map
    ModelPrediction.score

/-- The per-entity combined score an ensemble run assigns, read off the
first (and, keys being unique, only) matching result. -/
def combinedScore (c : EnsembleCombiner) (predictions : List ModelPrediction)
    (e : String) : Option ℚ :=
  ((c.combine predictions).find? (fun r => r.entity_id = e)).map EnsembleScore.score

/-- The per-entity per-model breakdown entry an ensemble run assigns. -/
def breakdownScore (c : EnsembleCombiner) (predictions : List ModelPrediction)
    (e m : String) : Option ℚ :=
  ((c.combine predictions).find? (fun r => r.entity_id = e)).bind
    (fun r => lookupA r.breakdown m)

/-- How many entries of l are not yet in v: the decreasing measure of
the BFS inside detect_communities. -/
def remaining (l v : List String) : Nat := (l.filter (fun x => ¬ x ∈ v)).length

/-- The closure invariant of the adjacency accumulator: every entry list
is non-empty and every recorded neighbour is itself a key. -/
abbrev AdjClosed (adj : Adjacency) : Prop :=
  ∀ p ∈ adj, p.2 ≠ [] ∧ ∀ q ∈ p.2, q.1 ∈ keysA adj

/-!
## Association-list lemmas
-/

theorem lookupA_append {β : Type} (l l' : List (String × β)) (k : String) :
    lookupA (l ++ l') k =
      match lookupA l k with
      | some v => some v
      | none => lookupA l' k := by
  induction l with
  | nil => simp [lookupA]
  | cons hd t ih =>
    obtain ⟨k1, v1⟩ := hd
    by_cases hk : k1 = k
    · simp [lookupA, hk]
    · simpa [lookupA, hk] using ih

theorem lookupA_insertA_self {β : Type} (l : List (String × β)) (k : String) (v : β) :
    lookupA (insertA l k v) k = some v := by
  induction l with
  | nil => simp [insertA, lookupA]
  | cons hd t ih =>
    obtain ⟨k1, v1⟩ := hd
    by_cases hk : k1 = k
    · simp [insertA, hk, lookupA]
    · simp [insertA, hk, lookupA, ih]

theorem lookupA_insertA_ne {β : Type} (l : List (String × β)) (k k' : String) (v : β)
    (hne : k' ≠ k) : lookupA (insertA l k v) k' = lookupA l k' := by
  have hne' : ¬ k = k' := fun h => hne h.symm
  induction l with
  | nil => simp [insertA, lookupA, hne']
  | cons hd t ih =>
    obtain ⟨k1, v1⟩ := hd
    by_cases hk : k1 = k
    · simp [insertA, hk, lookupA, hne']
    · simp [insertA, hk, lookupA, ih]

theorem keysA_cons {β : Type} (k1 : String) (v1 : β) (t : List (String × β)) :
    keysA ((k1, v1) :: t) = k1 :: keysA t := rfl

theorem keysA_insertA_of_mem {β : Type} (l : List (String × β)) (k : String) (v : β)
    (h : k ∈ keysA l) : keysA (insertA l k v) = keysA l := by
  induction l with
  | nil => simp [keysA] at h
  | cons hd t ih =>
    obtain ⟨k1, v1⟩ := hd
    by_cases hk : k1 = k
    · simp [insertA, hk, keysA]
    · have h' : k ∈ keysA t := by
        rw [keysA_cons] at h
        exact (List.mem_cons.mp h).resolve_left (fun he => hk he.symm)
      rw [show insertA ((k1, v1) :: t) k v = (k1, v1) :: insertA t k v by
        simp [insertA, hk]]
      rw [keysA_cons, keysA_cons, ih h']

theorem keysA_insertA_of_not_mem {β : Type} (l : List (String × β)) (k : String) (v : β)
    (h : k ∉ keysA l) : insertA l k v = l ++ [(k, v)] := by
  induction l with
  | nil => simp [insertA]
  | cons hd t ih =>
    obtain ⟨k1, v1⟩ := hd
    have hk : ¬ k1 = k := by
      intro hcontra
      exact h (by simp [keysA, hcontra])
    have ht : k ∉ keysA t := by
      intro hmem
      exact h (by simp [keysA]; exact Or.inr (by simpa [keysA] using hmem))
    simp [insertA, hk, ih ht]

theorem nodupKeys_insertA {β : Type} (l : List (String × β)) (k : String) (v : β)
    (h : (keysA l).Nodup) : (keysA (insertA l k v)).Nodup := by
  by_cases hmem : k ∈ keysA l
  · rwa [keysA_insertA_of_mem l k v hmem]
  · rw [keysA_insertA_of_not_mem l k v hmem]
    have hkeys : keysA (l ++ [(k, v)]) = keysA l ++ [k] := by simp [keysA]
    rw [hkeys, List.nodup_append]
    refine ⟨h, List.nodup_singleton k, ?_⟩
    intro a ha hb
    rw [List.mem_singleton] at hb
    subst hb
    exact hmem ha

theorem lookupA_eq_none_of_not_mem {β : Type} (l : List (String × β)) (k : String)
    (h : k ∉ keysA l) : lookupA l k = none := by
  induction l with
  | nil => simp [lookupA]
  | cons hd t ih =>
    obtain ⟨k1, v1⟩ := hd
    have hk : ¬ k1 = k := fun hc => h (by simp [keysA, hc])
    have ht : k ∉ keysA t := by
      intro hm
      exact h (by simp [keysA]; exact Or.inr (by simpa [keysA] using hm))
    simp [lookupA, hk, ih ht]

theorem lookupA_isSome_of_mem {β : Type} (l : List (String × β)) (k : String)
    (h : k ∈ keysA l) : (lookupA l k).isSome := by
  induction l with
  | nil => simp [keysA] at h
  | cons hd t ih =>
    obtain ⟨k1, v1⟩ := hd
    by_cases hk : k1 = k
    · simp [lookupA, hk]
    · have ht : k ∈ keysA t := by
        rw [keysA_cons] at h
        exact (List.mem_cons.mp h).resolve_left (fun he => hk he.symm)
      simp [lookupA, hk, ih ht]

theorem mem_of_lookupA_eq_some {β : Type} (l : List (String × β)) (k : String) (v : β)
    (h : lookupA l k = some v) : (k, v) ∈ l := by
  induction l with
  | nil => simp [lookupA] at h
  | cons hd t ih =>
    obtain ⟨k1, v1⟩ := hd
    by_cases hk : k1 = k
    · simp [lookupA, hk] at h
      subst hk
      subst h
      exact List.mem_cons_self _ _
    · simp [lookupA, hk] at h
      exact List.mem_cons_of_mem _ (ih h)

theorem mem_keysA_of_lookupA_isSome {β : Type} (l : List (String × β)) (k : String)
    (h : (lookupA l k).isSome) : k ∈ keysA l := by
  by_contra hmem
  rw [lookupA_eq_none_of_not_mem l k hmem] at h
  simp at h

/-!
## Graph construction lemmas
-/

theorem foldl_invariant {α β : Type} (P : α → Prop) (f : α → β → α) :
    ∀ (l : List β) (init : α), P init → (∀ a b, P a → P (f a b)) →
    P (l.foldl f init)
  | [], init, h, _ => h
  | b :: l, init, h, hstep => foldl_invariant P f l (f init b) (hstep init b h) hstep

theorem mem_keysA_iff {β : Type} (l : List (String × β)) (k : String) :
    k ∈ keysA l ↔ ∃ p ∈ l, p.1 = k := by
  constructor
  · intro h
    rcases List.mem_map.mp h with ⟨p, hp, hpe⟩
    exact ⟨p, hp, hpe⟩
  · rintro ⟨p, hp, hpe⟩
    exact List.mem_map.mpr ⟨p, hp, hpe⟩

theorem bumpA_ne_nil (es : List (String × ℚ)) (tgt : String) (w : ℚ) :
    bumpA es tgt w ≠ [] := by
  cases es with
  | nil => simp [bumpA]
  | cons hd t =>
    obtain ⟨k, v⟩ := hd
    by_cases hk : k = tgt <;> simp [bumpA, hk]

theorem bumpA_fst (es : List (String × ℚ)) (tgt : String) (w : ℚ) :
    ∀ p ∈ bumpA es tgt w, p.1 = tgt ∨ p.1 ∈ keysA es := by
  induction es with
  | nil =>
    intro p hp
    rw [show bumpA [] tgt w = [(tgt, w)] from rfl] at hp
    rw [List.mem_singleton.mp hp]
    exact Or.inl rfl
  | cons hd t ih =>
    obtain ⟨k, v⟩ := hd
    intro p hp
    by_cases hk : k = tgt
    · rw [show bumpA ((k, v) :: t) tgt w = (k, v + w) :: t by simp [bumpA, hk]] at hp
      rcases List.mem_cons.mp hp with heq | hp
      · rw [heq]
        exact Or.inl hk
      · refine Or.inr ?_
        rw [keysA_cons]
        exact List.mem_cons_of_mem _ ((mem_keysA_iff t p.1).mpr ⟨p, hp, rfl⟩)
    · rw [show bumpA ((k, v) :: t) tgt w = (k, v) :: bumpA t tgt w by
        simp [bumpA, hk]] at hp
      rcases List.mem_cons.mp hp with heq | hp
      · refine Or.inr ?_
        rw [heq, keysA_cons]
        exact List.mem_cons_self _ _
      · rcases ih p hp with h | h
        · exact Or.inl h
        · refine Or.inr ?_
          rw [keysA_cons]
          exact List.mem_cons_of_mem _ h

theorem keysA_addWeight_sub (adj : Adjacency) (src tgt : String) (w : ℚ) :
    (∀ k ∈ keysA adj, k ∈ keysA (addWeight adj src tgt w)) ∧
      src ∈ keysA (addWeight adj src tgt w) := by
  induction adj with
  | nil =>
    constructor
    · intro k hk
      simp [keysA] at hk
    · rw [show addWeight [] src tgt w = [(src, [(tgt, w)])] from rfl, keysA_cons]
      exact List.mem_cons_self _ _
  | cons hd t ih =>
    obtain ⟨k1, es1⟩ := hd
    by_cases hk : k1 = src
    · subst hk
      rw [show addWeight ((k1, es1) :: t) k1 tgt w = (k1, bumpA es1 tgt w) :: t by
        simp [addWeight]]
      constructor
      · intro k hkk
        rw [keysA_cons] at hkk ⊢
        exact hkk
      · rw [keysA_cons]
        exact List.mem_cons_self _ _
    · rw [show addWeight ((k1, es1) :: t) src tgt w =
          (k1, es1) :: addWeight t src tgt w by simp [addWeight, hk]]
      constructor
      · intro k hkk
        rw [keysA_cons] at hkk ⊢
        rcases List.mem_cons.mp hkk with h | h
        · exact List.mem_cons.mpr (Or.inl h)
        · exact List.mem_cons.mpr (Or.inr (ih.1 k h))
      · rw [keysA_cons]
        exact List.mem_cons.mpr (Or.inr ih.2)

theorem mem_addWeight_cases (adj : Adjacency) (src tgt : String) (w : ℚ) :
    ∀ (n : String) (es : List (String × ℚ)), (n, es) ∈ addWeight adj src tgt w →
      (n, es) ∈ adj ∨
        (n = src ∧ (es = [(tgt, w)] ∨
          ∃ es₀, (n, es₀) ∈ adj ∧ es = bumpA es₀ tgt w)) := by
  induction adj with
  | nil =>
    intro n es h
    rw [show addWeight [] src tgt w = [(src, [(tgt, w)])] from rfl] at h
    have heq := List.mem_singleton.mp h
    injection heq with h1 h2
    exact Or.inr ⟨h1, Or.inl h2⟩
  | cons hd t ih =>
    obtain ⟨k1, es1⟩ := hd
    intro n es h
    by_cases hk : k1 = src
    · subst hk
      rw [show addWeight ((k1, es1) :: t) k1 tgt w = (k1, bumpA es1 tgt w) :: t by
        simp [addWeight]] at h
      rcases List.mem_cons.mp h with heq | hmem
      · injection heq with h1 h2
        subst h1
        exact Or.inr ⟨rfl, Or.inr ⟨es1, List.mem_cons_self _ _, h2⟩⟩
      · exact Or.inl (List.mem_cons_of_mem _ hmem)
    · rw [show addWeight ((k1, es1) :: t) src tgt w =
          (k1, es1) :: addWeight t src tgt w by simp [addWeight, hk]] at h
      rcases List.mem_cons.mp h with heq | hmem
      · exact Or.inl (heq ▸ List.mem_cons_self _ _)
      · rcases ih n es hmem with h' | ⟨hn, h'⟩
        · exact Or.inl (List.mem_cons_of_mem _ h')
        · refine Or.inr ⟨hn, ?_⟩
          rcases h' with h' | ⟨es₀, hmem₀, hes⟩
          · exact Or.inl h'
          · exact Or.inr ⟨es₀, List.mem_cons_of_mem _ hmem₀, hes⟩

theorem adjClosed_addSym (adj : Adjacency) (a b : String) (w : ℚ)
    (h : AdjClosed adj) :
    AdjClosed (addWeight (addWeight adj a b w) b a w) := by
  have hsub1 : ∀ k ∈ keysA adj, k ∈ keysA (addWeight adj a b w) :=
    (keysA_addWeight_sub adj a b w).1
  have hsub2 : ∀ k ∈ keysA (addWeight adj a b w),
      k ∈ keysA (addWeight (addWeight adj a b w) b a w) :=
    (keysA_addWeight_sub (addWeight adj a b w) b a w).1
  have ha2 : a ∈ keysA (addWeight (addWeight adj a b w) b a w) :=
    hsub2 a (keysA_addWeight_sub adj a b w).2
  have hb2 : b ∈ keysA (addWeight (addWeight adj a b w) b a w) :=
    (keysA_addWeight_sub (addWeight adj a b w) b a w).2
  have hold : ∀ k ∈ keysA adj, k ∈ keysA (addWeight (addWeight adj a b w) b a w) :=
    fun k hk => hsub2 k (hsub1 k hk)
  have h1 : ∀ p ∈ addWeight adj a b w, p.2 ≠ [] ∧
      ∀ q ∈ p.2, q.1 ∈ keysA (addWeight (addWeight adj a b w) b a w) := by
    intro p hp
    obtain ⟨n, es⟩ := p
    rcases mem_addWeight_cases adj a b w n es hp with hmem | ⟨hn, hes⟩
    · rcases h (n, es) hmem with ⟨hne, hq⟩
      exact ⟨hne, fun q hq' => hold q.1 (hq q hq')⟩
    · rcases hes with hes | ⟨es₀, hmem, hes⟩
      · subst hes
        refine ⟨by simp, ?_⟩
        intro q hq
        rw [List.mem_singleton.mp hq]
        exact hb2
      · subst hes
        refine ⟨bumpA_ne_nil es₀ b w, ?_⟩
        intro q hq
        rcases bumpA_fst es₀ b w q hq with hq' | hq'
        · rw [hq']
          exact hb2
        · rcases (mem_keysA_iff es₀ q.1).mp hq' with ⟨q', hq'mem, hq'eq⟩
          rw [← hq'eq]
          exact hold q'.1 ((h (n, es₀) hmem).2 q' hq'mem)
  intro p hp
  obtain ⟨n, es⟩ := p
  rcases mem_addWeight_cases (addWeight adj a b w) b a w n es hp with hmem | ⟨hn, hes⟩
  · exact h1 (n, es) hmem
  · rcases hes with hes | ⟨es₀, hmem, hes⟩
    · subst hes
      refine ⟨by simp, ?_⟩
      intro q hq
      rw [List.mem_singleton.mp hq]
      exact ha2
    · subst hes
      refine ⟨bumpA_ne_nil es₀ a w, ?_⟩
      intro q hq
      rcases bumpA_fst es₀ a w q hq with hq' | hq'
      · rw [hq']
        exact ha2
      · rcases (mem_keysA_iff es₀ q.1).mp hq' with ⟨q', hq'mem, hq'eq⟩
        rw [← hq'eq]
        exact (h1 (n, es₀) hmem).2 q' hq'mem

theorem buildAdjacency_closed (g : GraphModule) (trades : List TradeEvent) :
    AdjClosed (g.buildAdjacency trades) := by
  unfold GraphModule.buildAdjacency
  refine foldl_invariant AdjClosed _ _ []
    (fun p hp => absurd hp (List.not_mem_nil p)) ?_
  intro adj m hadj
  refine foldl_invariant AdjClosed _ _ adj hadj ?_
  intro adj' pr hadj'
  unfold GraphModule.addPair
  by_cases hthr : g.threshold ≤ g.coTradingWeight pr.1 pr.2
  · simpa [hthr] using adjClosed_addSym adj' pr.1.account_id pr.2.account_id
      (g.coTradingWeight pr.1 pr.2) hadj'
  · simpa [hthr] using hadj'

theorem lookupA_mapGraph (adj : Adjacency) (k : String) :
    lookupA (adj.map (fun n => (n.1, n.2.map (fun e => GraphEdge.mk n.1 e.1 e.2)))) k =
      (lookupA adj k).map (fun es₀ => es₀.map (fun q => GraphEdge.mk k q.1 q.2)) := by
  induction adj with
  | nil => simp [lookupA]
  | cons hd t ih =>
    obtain ⟨k1, v1⟩ := hd
    by_cases hk : k1 = k
    · subst hk
      simp [lookupA]
    · simp [lookupA, hk, ih]

theorem keysA_mapGraph (adj : Adjacency) :
    keysA (adj.map (fun n => (n.1, n.2.map (fun e => GraphEdge.mk n.1 e.1 e.2)))) =
      keysA adj := by
  induction adj with
  | nil => rfl
  | cons hd t ih =>
    obtain ⟨k1, v1⟩ := hd
    rw [List.map_cons, keysA_cons, keysA_cons, ih]

/-- build_wallet_graph produces a well-formed graph: every edge target
is a key of the graph, and every adjacency entry is non-empty. -/
theorem buildWalletGraph_wf (g : GraphModule) (trades : List TradeEvent) :
    (∀ n es, lookupA (g.buildWalletGraph trades) n = some es →
      ∀ e ∈ es, e.target ∈ keysA (g.buildWalletGraph trades)) ∧
    (∀ p ∈ g.buildWalletGraph trades, p.2 ≠ []) := by
  have hkeys : keysA (g.buildWalletGraph trades) = keysA (g.buildAdjacency trades) :=
    keysA_mapGraph _
  have hadj := buildAdjacency_closed g trades
  constructor
  · intro n es hlk e he
    unfold GraphModule.buildWalletGraph at hlk
    rw [lookupA_mapGraph] at hlk
    rcases Option.map_eq_some'.mp hlk with ⟨es₀, hes₀, rfl⟩
    rcases List.mem_map.mp he with ⟨q, hq, rfl⟩
    rw [hkeys]
    exact (hadj (n, es₀) (mem_of_lookupA_eq_some _ _ _ hes₀)).2 q hq
  · intro p hp
    unfold GraphModule.buildWalletGraph at hp
    rcases List.mem_map.mp hp with ⟨p₀, hp₀, rfl⟩
    have hne := (hadj p₀ hp₀).1
    simpa using hne

/-!
## BFS lemmas for detect_communities
-/

theorem remaining_cons (a : String) (t v : List String) :
    remaining (a :: t) v = (if a ∈ v then 0 else 1) + remaining t v := by
  by_cases h : a ∈ v <;> simp [remaining, List.filter_cons, h] <;> omega

theorem remaining_congr (l : List String) (v v' : List String)
    (h : ∀ x ∈ l, (x ∈ v ↔ x ∈ v')) : remaining l v = remaining l v' := by
  induction l with
  | nil => rfl
  | cons a t ih =>
    rw [remaining_cons, remaining_cons,
      ih (fun x hx => h x (List.mem_cons_of_mem _ hx))]
    have ha := h a (List.mem_cons_self _ _)
    by_cases hv : a ∈ v
    · rw [if_pos hv, if_pos (ha.mp hv)]
    · rw [if_neg hv, if_neg (fun hc => hv (ha.mpr hc))]

theorem remaining_le (l v : List String) : remaining l v ≤ l.length :=
  List.length_filter_le _ l

theorem remaining_snoc (l : List String) (hl : l.Nodup) :
    ∀ (v : List String) (d : String), d ∈ l → d ∉ v →
      remaining l (v ++ [d]) + 1 = remaining l v := by
  induction l with
  | nil =>
    intro v d hd _
    simp at hd
  | cons a t ih =>
    intro v d hd hdv
    rcases List.nodup_cons.mp hl with ⟨hat, ht⟩
    rw [remaining_cons, remaining_cons]
    rcases List.mem_cons.mp hd with heq | hdt
    · subst heq
      have h1 : remaining t (v ++ [d]) = remaining t v := by
        refine remaining_congr t _ _ ?_
        intro x hx
        have hxd : x ≠ d := fun hc => hat (hc ▸ hx)
        simp [hxd]
      rw [h1, if_pos (by simp), if_neg hdv]
      omega
    · have had : a ≠ d := fun hc => hat (hc ▸ hdt)
      have hmem : (a ∈ v ++ [d]) ↔ a ∈ v := by simp [had]
      have h2 := ih ht v d hdt hdv
      by_cases hv : a ∈ v
      · rw [if_pos (hmem.mpr hv), if_pos hv]
        omega
      · rw [if_neg (fun hc => hv (hmem.mp hc)), if_neg hv]
        omega

theorem remaining_append (l : List String) (hl : l.Nodup) :
    ∀ (δ v : List String), δ.Nodup → (∀ x ∈ δ, x ∉ v) → (∀ x ∈ δ, x ∈ l) →
      remaining l (v ++ δ) + δ.length = remaining l v := by
  intro δ
  induction δ with
  | nil =>
    intro v _ _ _
    simp
  | cons d δ' ih =>
    intro v hnd hfresh hsub
    rcases List.nodup_cons.mp hnd with ⟨hdδ, hδ'⟩
    have hstep := remaining_snoc l hl v d (hsub d (List.mem_cons_self _ _))
      (hfresh d (List.mem_cons_self _ _))
    have hrest := ih (v ++ [d]) hδ'
      (fun x hx => by
        intro hc
        rcases List.mem_append.mp hc with hc | hc
        · exact hfresh x (List.mem_cons_of_mem _ hx) hc
        · exact hdδ (List.mem_singleton.mp hc ▸ hx))
      (fun x hx => hsub x (List.mem_cons_of_mem _ hx))
    have hshape : v ++ d :: δ' = (v ++ [d]) ++ δ' := by simp
    rw [hshape]
    simp only [List.length_cons]
    omega

theorem scanNeighbors_spec (edges : List GraphEdge) :
    ∀ (queue visited : List String),
      ∃ δ, GraphModule.scanNeighbors edges queue visited = (queue ++ δ, visited ++ δ) ∧
        δ.Nodup ∧ (∀ x ∈ δ, x ∉ visited) ∧
        (∀ x ∈ δ, x ∈ edges.map GraphEdge.target) := by
  induction edges with
  | nil =>
    intro q v
    exact ⟨[], by simp [GraphModule.scanNeighbors], List.nodup_nil, by simp, by simp⟩
  | cons e es ih =>
    intro q v
    by_cases he : e.target ∈ v
    · obtain ⟨δ, hres, hnd, hfresh, htgt⟩ := ih q v
      refine ⟨δ, ?_, hnd, hfresh, ?_⟩
      · rw [show GraphModule.scanNeighbors (e :: es) q v =
            GraphModule.scanNeighbors es q v by
          simp [GraphModule.scanNeighbors, he]]
        exact hres
      · intro x hx
        rw [List.map_cons]
        exact List.mem_cons_of_mem _ (htgt x hx)
    · obtain ⟨δ, hres, hnd, hfresh, htgt⟩ := ih (q ++ [e.target]) (v ++ [e.target])
      refine ⟨e.target :: δ, ?_, ?_, ?_, ?_⟩
      · rw [show GraphModule.scanNeighbors (e :: es) q v =
            GraphModule.scanNeighbors es (q ++ [e.target]) (v ++ [e.target]) by
          simp [GraphModule.scanNeighbors, he]]
        rw [hres]
        simp
      · exact List.nodup_cons.mpr
          ⟨fun hc => hfresh e.target hc (by simp), hnd⟩
      · intro x hx
        rcases List.mem_cons.mp hx with heq | hx
        · rw [heq]
          exact he
        · intro hxv
          exact hfresh x hx (List.mem_append_left _ hxv)
      · intro x hx
        rw [List.map_cons]
        rcases List.mem_cons.mp hx with heq | hx
        · rw [heq]
          exact List.mem_cons_self _ _
        · exact List.mem_cons_of_mem _ (htgt x hx)

/-- The master invariant of the BFS loop of detect_communities. Ghost
variable R is the set of nodes visited before this BFS started; the
visited list always splits, up to permutation, into the emitted
community, the pending queue, and R. With enough fuel the queue drains,
so the final visited list is exactly community plus R. -/
theorem bfsLoop_spec (graph : WalletGraph)
    (wf : ∀ n es, lookupA graph n = some es → ∀ e ∈ es, e.target ∈ keysA graph) :
    ∀ (fuel : Nat) (queue visited community R : List String),
      visited.Nodup →
      visited.Perm (community ++ queue ++ R) →
      (∀ x ∈ queue, x ∈ keysA graph) →
      (∀ x ∈ community, x ∈ keysA graph) →
      queue.length + remaining (GraphModule.allNodes graph).dedup visited ≤ fuel →
      (GraphModule.bfsLoop graph fuel queue visited community).2.Nodup ∧
      (GraphModule.bfsLoop graph fuel queue visited community).2.Perm
        ((GraphModule.bfsLoop graph fuel queue visited community).1 ++ R) ∧
      (∀ x ∈ (GraphModule.bfsLoop graph fuel queue visited community).1,
        x ∈ keysA graph) ∧
      (∀ x ∈ queue, x ∈ (GraphModule.bfsLoop graph fuel queue visited community).1) ∧
      (∃ δc, (GraphModule.bfsLoop graph fuel queue visited community).1 =
        community ++ δc) := by
  intro fuel
  induction fuel with
  | zero =>
    intro queue visited community R hnd hperm hqk hck hfuel
    have hq : queue = [] := by
      have hlen : queue.length = 0 := by omega
      exact List.length_eq_zero.mp hlen
    subst hq
    have heq : GraphModule.bfsLoop graph 0 [] visited community =
        (community, visited) := rfl
    rw [heq]
    exact ⟨hnd, by simpa using hperm, hck, by simp, ⟨[], by simp⟩⟩
  | succ f ih =>
    intro queue visited community R hnd hperm hqk hck hfuel
    cases queue with
    | nil =>
      have heq : GraphModule.bfsLoop graph (f + 1) [] visited community =
          (community, visited) := rfl
      rw [heq]
      exact ⟨hnd, by simpa using hperm, hck, by simp, ⟨[], by simp⟩⟩
    | cons cur q =>
      obtain ⟨δ, hscan, hδnd, hδfresh, hδtgt⟩ :=
        scanNeighbors_spec ((lookupA graph cur).getD []) q visited
      have hstep : GraphModule.bfsLoop graph (f + 1) (cur :: q) visited community =
          GraphModule.bfsLoop graph f (q ++ δ) (visited ++ δ) (community ++ [cur]) := by
        show GraphModule.bfsLoop graph f
            (GraphModule.scanNeighbors ((lookupA graph cur).getD []) q visited).1
            (GraphModule.scanNeighbors ((lookupA graph cur).getD []) q visited).2
            (community ++ [cur]) =
          GraphModule.bfsLoop graph f (q ++ δ) (visited ++ δ) (community ++ [cur])
        rw [hscan]
      have hδk : ∀ x ∈ δ, x ∈ keysA graph := by
        intro x hx
        have hmem := hδtgt x hx
        cases hlk : lookupA graph cur with
        | none =>
          rw [hlk] at hmem
          simp at hmem
        | some es =>
          rw [hlk] at hmem
          simp only [Option.getD_some] at hmem
          rcases List.mem_map.mp hmem with ⟨e, he, rfl⟩
          exact wf cur es hlk e he
      have hdisj : List.Disjoint visited δ := fun a ha hb => hδfresh a hb ha
      have hnd' : (visited ++ δ).Nodup :=
        List.nodup_append.mpr ⟨hnd, hδnd, hdisj⟩
      have hperm' : (visited ++ δ).Perm
          ((community ++ [cur]) ++ (q ++ δ) ++ R) := by
        rw [List.perm_iff_count] at hperm ⊢
        intro a
        have hcount := hperm a
        simp only [List.count_append, List.count_cons, List.count_nil,
          beq_iff_eq] at hcount ⊢
        omega
      have hqk' : ∀ x ∈ q ++ δ, x ∈ keysA graph := by
        intro x hx
        rcases List.mem_append.mp hx with hx | hx
        · exact hqk x (List.mem_cons_of_mem _ hx)
        · exact hδk x hx
      have hck' : ∀ x ∈ community ++ [cur], x ∈ keysA graph := by
        intro x hx
        rcases List.mem_append.mp hx with hx | hx
        · exact hck x hx
        · exact List.mem_singleton.mp hx ▸ hqk cur (List.mem_cons_self _ _)
      have hfuel' : (q ++ δ).length +
          remaining (GraphModule.allNodes graph).dedup (visited ++ δ) ≤ f := by
        have hδdedup : ∀ x ∈ δ, x ∈ (GraphModule.allNodes graph).dedup := by
          intro x hx
          rw [List.mem_dedup]
          unfold GraphModule.allNodes
          exact List.mem_append_left _ (hδk x hx)
        have happ := remaining_append (GraphModule.allNodes graph).dedup
          (List.nodup_dedup _) δ visited hδnd hδfresh hδdedup
        rw [List.length_append]
        have hq1 : (cur :: q).length = q.length + 1 := by simp
        rw [hq1] at hfuel
        omega
      obtain ⟨c1, c2, c3, c4, c5⟩ :=
        ih (q ++ δ) (visited ++ δ) (community ++ [cur]) R hnd' hperm' hqk' hck' hfuel'
      rw [hstep]
      refine ⟨c1, c2, c3, ?_, ?_⟩
      · intro x hx
        rcases List.mem_cons.mp hx with heq | hx
        · obtain ⟨δc, hδc⟩ := c5
          rw [heq, hδc]
          exact List.mem_append_left _ (List.mem_append_right _ (by simp))
        · exact c4 x (List.mem_append_left _ hx)
      · obtain ⟨δc, hδc⟩ := c5
        exact ⟨[cur] ++ δc, by rw [hδc, List.append_assoc]⟩

/-- The outer loop of detect_communities: at every point the visited
list is, up to permutation, the concatenation of the communities emitted
so far, so communities are pairwise disjoint, lie inside the graph's key
set and cover every key iterated over. -/
theorem communitiesLoop_spec (graph : WalletGraph)
    (wf : ∀ n es, lookupA graph n = some es → ∀ e ∈ es, e.target ∈ keysA graph)
    (fuel : Nat) (hfuel : (GraphModule.allNodes graph).length + 1 ≤ fuel) :
    ∀ (rest : List (String × List GraphEdge)) (visited : List String),
      visited.Nodup →
      (∀ x ∈ visited, x ∈ keysA graph) →
      (∀ p ∈ rest, p.1 ∈ keysA graph) →
      (visited ++
        (GraphModule.communitiesLoop graph fuel rest visited).join).Nodup ∧
      (∀ c ∈ GraphModule.communitiesLoop graph fuel rest visited,
        ∀ x ∈ c, x ∈ keysA graph) ∧
      (∀ p ∈ rest, p.1 ∈ visited ∨
        p.1 ∈ (GraphModule.communitiesLoop graph fuel rest visited).join) := by
  intro rest
  induction rest with
  | nil =>
    intro visited hnd hvk _
    have heq : GraphModule.communitiesLoop graph fuel [] visited = [] := rfl
    rw [heq]
    exact ⟨by simpa using hnd, by simp, by simp⟩
  | cons hd t ih =>
    intro visited hnd hvk hrk
    obtain ⟨node, es⟩ := hd
    have heq : GraphModule.communitiesLoop graph fuel ((node, es) :: t) visited =
        if node ∈ visited then GraphModule.communitiesLoop graph fuel t visited
        else (GraphModule.bfsLoop graph fuel [node] (visited ++ [node]) []).1 ::
          GraphModule.communitiesLoop graph fuel t
            (GraphModule.bfsLoop graph fuel [node] (visited ++ [node]) []).2 := rfl
    by_cases hv : node ∈ visited
    · rw [heq, if_pos hv]
      obtain ⟨d1, d2, d3⟩ := ih visited hnd hvk
        (fun p hp => hrk p (List.mem_cons_of_mem _ hp))
      refine ⟨d1, d2, ?_⟩
      intro p hp
      rcases List.mem_cons.mp hp with hpe | hp
      · rw [hpe]
        exact Or.inl hv
      · exact d3 p hp
    · rw [heq, if_neg hv]
      have hndk : node ∈ keysA graph := hrk (node, es) (List.mem_cons_self _ _)
      have hnd1 : (visited ++ [node]).Nodup := by
        rw [List.nodup_append]
        refine ⟨hnd, List.nodup_singleton _, ?_⟩
        intro a ha hb
        rw [List.mem_singleton] at hb
        subst hb
        exact hv ha
      have hperm1 : (visited ++ [node]).Perm ([] ++ [node] ++ visited) := by
        rw [List.perm_iff_count]
        intro a
        simp only [List.count_append, List.count_cons, List.count_nil, beq_iff_eq,
          List.nil_append]
        omega
      have hq1 : ∀ x ∈ [node], x ∈ keysA graph := by
        intro x hx
        rw [List.mem_singleton.mp hx]
        exact hndk
      have hc1 : ∀ x ∈ ([] : List String), x ∈ keysA graph := by simp
      have hfuelcall : [node].length +
          remaining (GraphModule.allNodes graph).dedup (visited ++ [node]) ≤ fuel := by
        have h1 : remaining (GraphModule.allNodes graph).dedup (visited ++ [node]) ≤
            (GraphModule.allNodes graph).dedup.length := remaining_le _ _
        have h2 : (GraphModule.allNodes graph).dedup.length ≤
            (GraphModule.allNodes graph).length :=
          List.Sublist.length_le (List.dedup_sublist _)
        simp only [List.length_singleton]
        omega
      obtain ⟨c1, c2, c3, c4, c5⟩ := bfsLoop_spec graph wf fuel [node]
        (visited ++ [node]) [] visited hnd1 hperm1 hq1 hc1 hfuelcall
      have hvk' : ∀ x ∈ (GraphModule.bfsLoop graph fuel [node]
          (visited ++ [node]) []).2, x ∈ keysA graph := by
        intro x hx
        rcases List.mem_append.mp (c2.mem_iff.mp hx) with hx' | hx'
        · exact c3 x hx'
        · exact hvk x hx'
      obtain ⟨d1, d2, d3⟩ := ih (GraphModule.bfsLoop graph fuel [node]
          (visited ++ [node]) []).2 c1 hvk'
        (fun p hp => hrk p (List.mem_cons_of_mem _ hp))
      have hjoin : ((GraphModule.bfsLoop graph fuel [node]
            (visited ++ [node]) []).1 ::
          GraphModule.communitiesLoop graph fuel t
            (GraphModule.bfsLoop graph fuel [node] (visited ++ [node]) []).2).join =
          (GraphModule.bfsLoop graph fuel [node] (visited ++ [node]) []).1 ++
          (GraphModule.communitiesLoop graph fuel t
            (GraphModule.bfsLoop graph fuel [node] (visited ++ [node]) []).2).join :=
        rfl
      refine ⟨?_, ?_, ?_⟩
      · rw [hjoin]
        have hperm2 : ((GraphModule.bfsLoop graph fuel [node]
              (visited ++ [node]) []).2 ++
            (GraphModule.communitiesLoop graph fuel t
              (GraphModule.bfsLoop graph fuel [node] (visited ++ [node]) []).2).join).Perm
            (visited ++ ((GraphModule.bfsLoop graph fuel [node]
              (visited ++ [node]) []).1 ++
            (GraphModule.communitiesLoop graph fuel t
              (GraphModule.bfsLoop graph fuel [node] (visited ++ [node]) []).2).join)) := by
          have hc2 := c2
          rw [List.perm_iff_count] at hc2 ⊢
          intro a
          have hca := hc2 a
          simp only [List.count_append] at hca ⊢
          omega
        exact hperm2.nodup d1
      · intro c hc
        rcases List.mem_cons.mp hc with hce | hc
        · rw [hce]
          exact c3
        · exact d2 c hc
      · intro p hp
        rcases List.mem_cons.mp hp with hpe | hp
        · right
          rw [hpe, hjoin]
          exact List.mem_append_left _ (c4 node (List.mem_cons_self _ _))
        · rcases d3 p hp with h | h
          · rcases List.mem_append.mp (c2.mem_iff.mp h) with h' | h'
            · right
              rw [hjoin]
              exact List.mem_append_left _ h'
            · exact Or.inl h'
          · right
            rw [hjoin]
            exact List.mem_append_right _ h

/-- detect_communities returns pairwise-disjoint communities (their
concatenation has no duplicate) that lie inside and cover the key set of
any well-formed graph. -/
theorem detectCommunities_spec (g : GraphModule) (graph : WalletGraph)
    (wf : ∀ n es, lookupA graph n = some es → ∀ e ∈ es, e.target ∈ keysA graph) :
    ((g.detectCommunities graph).join).Nodup ∧
    (∀ c ∈ g.detectCommunities graph, ∀ x ∈ c, x ∈ keysA graph) ∧
    (∀ x, x ∈ (g.detectCommunities graph).join ↔ x ∈ keysA graph) := by
  have h := communitiesLoop_spec graph wf ((GraphModule.allNodes graph).length + 1)
    le_rfl graph [] List.nodup_nil (by simp)
    (fun p hp => (mem_keysA_iff graph p.1).mpr ⟨p, hp, rfl⟩)
  obtain ⟨h1, h2, h3⟩ := h
  have heq : g.detectCommunities graph =
      GraphModule.communitiesLoop graph ((GraphModule.allNodes graph).length + 1)
        graph [] := rfl
  rw [heq]
  refine ⟨by simpa using h1, h2, ?_⟩
  intro x
  constructor
  · intro hx
    rcases List.mem_join.mp hx with ⟨c, hc, hxc⟩
    exact h2 c hc x hxc
  · intro hx
    rcases (mem_keysA_iff graph x).mp hx with ⟨p, hp, hpe⟩
    rcases h3 p hp with h | h
    · simp at h
    · exact hpe ▸ h

/-- Pairwise disjointness of a list of lists whose concatenation has no
duplicates. -/
theorem nodup_join_pairwise (cs : List (List String)) (h : cs.join.Nodup) :
    List.Pairwise (fun c d => ∀ x ∈ c, x ∉ d) cs := by
  induction cs with
  | nil => exact List.Pairwise.nil
  | cons c t ih =>
    have hjoin : (c :: t).join = c ++ t.join := rfl
    rw [hjoin] at h
    rcases List.nodup_append.mp h with ⟨hc, ht, hdisj⟩
    refine List.Pairwise.cons ?_ (ih ht)
    intro d hd x hx hxd
    exact hdisj hx (List.mem_join.mpr ⟨d, hd, hxd⟩)

/-!
## Ensemble grouping lemmas
-/

theorem nodupKeys_groupPredictions (preds : List ModelPrediction) :
    (keysA (EnsembleCombiner.groupPredictions preds)).Nodup := by
  unfold EnsembleCombiner.groupPredictions
  refine foldl_invariant (fun g => (keysA g).Nodup) _ preds []
    (by simp [keysA]) ?_
  intro g p hg
  exact nodupKeys_insertA _ _ _ hg

theorem lookupA_of_mem_nodupKeys {β : Type} (l : List (String × β)) (k : String)
    (v : β) (hnd : (keysA l).Nodup) (h : (k, v) ∈ l) : lookupA l k = some v := by
  induction l with
  | nil => simp at h
  | cons hd t ih =>
    obtain ⟨k1, v1⟩ := hd
    rw [keysA_cons] at hnd
    rcases List.nodup_cons.mp hnd with ⟨hk1, hnd'⟩
    rcases List.mem_cons.mp h with heq | hmem
    · injection heq with h1 h2
      subst h1
      subst h2
      simp [lookupA]
    · have hne : ¬ k1 = k := by
        intro hc
        subst hc
        exact hk1 ((mem_keysA_iff t k1).mpr ⟨(k1, v), hmem, rfl⟩)
      simp [lookupA, hne, ih hnd' hmem]

theorem groupPredictions_step (ps : List ModelPrediction) (p : ModelPrediction) :
    EnsembleCombiner.groupPredictions (ps ++ [p]) =
      insertA (EnsembleCombiner.groupPredictions ps) p.entity_id
        (insertA ((lookupA (EnsembleCombiner.groupPredictions ps)
          p.entity_id).getD []) p.model_name p.score) := by
  unfold EnsembleCombiner.groupPredictions
  rw [List.foldl_append]
  rfl

theorem groupPredictions_lookup_last (preds : List ModelPrediction)
    (e m : String) :
    lookupA ((lookupA (EnsembleCombiner.groupPredictions preds) e).getD []) m =
      lastPredScore preds e m := by
  induction preds using List.reverseRecOn with
  | nil => simp [EnsembleCombiner.groupPredictions, lookupA, lastPredScore]
  | append_singleton ps p ih =>
    rw [groupPredictions_step]
    by_cases he : p.entity_id = e
    · rw [he, lookupA_insertA_self]
      simp only [Option.getD_some]
      by_cases hm : p.model_name = m
      · rw [hm, lookupA_insertA_self]
        unfold lastPredScore
        rw [List.filter_append]
        have hfp : [p].filter
            (fun q => decide (q.entity_id = e ∧ q.model_name = m)) = [p] := by
          simp [he, hm]
        rw [hfp, List.getLast?_concat]
        simp
      · rw [lookupA_insertA_ne _ _ _ _ (fun hc => hm hc.symm), ih]
        unfold lastPredScore
        rw [List.filter_append]
        have hfp : [p].filter
            (fun q => decide (q.entity_id = e ∧ q.model_name = m)) = [] := by
          simp [hm]
        rw [hfp, List.append_nil]
    · rw [lookupA_insertA_ne _ _ _ _ (fun hc => he hc.symm), ih]
      unfold lastPredScore
      rw [List.filter_append]
      have hfp : [p].filter
          (fun q => decide (q.entity_id = e ∧ q.model_name = m)) = [] := by
        simp [he]
      rw [hfp, List.append_nil]

theorem groupPredictions_lookup_filter (preds : List ModelPrediction)
    (hnd : (preds.map (fun p => (p.entity_id, p.model_name))).Nodup) (e : String) :
    lookupA (EnsembleCombiner.groupPredictions preds) e =
      if preds.filter (fun p => p.entity_id = e) = [] then none
      else some ((preds.filter (fun p => p.entity_id = e)).map
        (fun p => (p.model_name, p.score))) := by
  induction preds using List.reverseRecOn with
  | nil => simp [EnsembleCombiner.groupPredictions, lookupA]
  | append_singleton ps p ih =>
    have hnd' : (ps.map (fun p => (p.entity_id, p.model_name))).Nodup := by
      rw [List.map_append] at hnd
      exact (List.nodup_append.mp hnd).1
    rw [groupPredictions_step, List.filter_append]
    by_cases he : p.entity_id = e
    · have hfp : [p].filter (fun q => decide (q.entity_id = e)) = [p] := by
        simp [he]
      rw [hfp, he, lookupA_insertA_self]
      have hne : ps.filter (fun q => decide (q.entity_id = e)) ++ [p] ≠ [] := by
        simp
      rw [if_neg hne]
      congr 1
      by_cases hempty : ps.filter (fun q => decide (q.entity_id = e)) = []
      · rw [ih hnd', if_pos hempty]
        simp [insertA, hempty]
      · rw [ih hnd', if_neg hempty]
        simp only [Option.getD_some]
        have hmnotin : p.model_name ∉ keysA
            ((ps.filter (fun q => decide (q.entity_id = e))).map
              (fun q => (q.model_name, q.score))) := by
          intro hc
          rcases (mem_keysA_iff _ _).mp hc with ⟨q', hq', hq'e⟩
          rcases List.mem_map.mp hq' with ⟨q, hq, rfl⟩
          have hqe : q.entity_id = e := by
            simpa using (List.mem_filter.mp hq).2
          have hqm : q.model_name = p.model_name := hq'e
          rw [List.map_append] at hnd
          rcases List.nodup_append.mp hnd with ⟨_, _, hdisj⟩
          have hmem1 : (e, p.model_name) ∈
              ps.map (fun p => (p.entity_id, p.model_name)) :=
            List.mem_map.mpr ⟨q, (List.mem_filter.mp hq).1, by rw [hqe, hqm]⟩
          have hmem2 : (e, p.model_name) ∈
              [p].map (fun p => (p.entity_id, p.model_name)) := by
            simp [he]
          exact hdisj hmem1 hmem2
        rw [keysA_insertA_of_not_mem _ _ _ hmnotin, List.map_append]
        simp
    · have hfp : [p].filter (fun q => decide (q.entity_id = e)) = [] := by
        simp [he]
      rw [hfp, List.append_nil, lookupA_insertA_ne _ _ _ _ (fun hc => he hc.symm)]
      exact ih hnd'

theorem weightedAverage_perm (c : EnsembleCombiner) (ms1 ms2 : List (String × ℚ))
    (h : ms1.Perm ms2) : c.weightedAverage ms1 = c.weightedAverage ms2 := by
  unfold EnsembleCombiner.weightedAverage
  have hsum : (ms1.map Prod.snd).sum = (ms2.map Prod.snd).sum := (h.map _).sum_eq
  have hlen : ms1.length = ms2.length := h.length_eq
  have htw : (ms1.map (fun p => (lookupA c.weights p.1).getD 0)).sum =
      (ms2.map (fun p => (lookupA c.weights p.1).getD 0)).sum := (h.map _).sum_eq
  have hws : (ms1.map (fun p => (lookupA c.weights p.1).getD 0 * p.2)).sum =
      (ms2.map (fun p => (lookupA c.weights p.1).getD 0 * p.2)).sum := (h.map _).sum_eq
  have hmean : mean (ms1.map Prod.snd) = mean (ms2.map Prod.snd) := by
    unfold mean
    rw [hsum, List.length_map, List.length_map, hlen]
  have hnil : (ms1 = []) ↔ (ms2 = []) := by
    constructor
    · intro hx
      subst hx
      exact h.nil_eq.symm
    · intro hx
      subst hx
      exact h.symm.nil_eq.symm
  by_cases h1 : ms1 = []
  · rw [if_pos h1, if_pos (hnil.mp h1)]
  · rw [if_neg h1, if_neg (fun hc => h1 (hnil.mpr hc)), hmean, htw, hws]

theorem find?_combine (c : EnsembleCombiner) (e : String) :
    ∀ (g : List (String × List (String × ℚ))),
      ((g.map (fun p =>
          (⟨p.1, c.weightedAverage p.2, p.2⟩ : EnsembleScore))).find?
        (fun r => r.entity_id = e)) =
      (lookupA g e).map
        (fun ms => (⟨e, c.weightedAverage ms, ms⟩ : EnsembleScore)) := by
  intro g
  induction g with
  | nil => simp [lookupA]
  | cons hd t ih =>
    obtain ⟨k1, ms1⟩ := hd
    by_cases hk : k1 = e
    · subst hk
      simp [List.find?, lookupA]
    · simp [List.find?, lookupA, hk, ih]

theorem lookupA_perm_nodupKeys {β : Type} (l1 l2 : List (String × β))
    (hnd : (keysA l1).Nodup) (h : l1.Perm l2) (k : String) :
    lookupA l1 k = lookupA l2 k := by
  have hkeys : (keysA l1).Perm (keysA l2) := h.map Prod.fst
  have hnd2 : (keysA l2).Nodup := hkeys.nodup_iff.mp hnd
  cases hlk : lookupA l1 k with
  | none =>
    have hk1 : k ∉ keysA l1 := by
      intro hc
      have := lookupA_isSome_of_mem l1 k hc
      rw [hlk] at this
      simp at this
    have hk2 : k ∉ keysA l2 := fun hc => hk1 (hkeys.mem_iff.mpr hc)
    rw [lookupA_eq_none_of_not_mem _ _ hk2]
  | some v =>
    exact (lookupA_of_mem_nodupKeys l2 k v hnd2
      (h.mem_iff.mp (mem_of_lookupA_eq_some _ _ _ hlk))).symm

theorem nodup_snd_of_const_fst (l : List (String × String)) (e : String)
    (hconst : ∀ x ∈ l, x.1 = e) (hnd : l.Nodup) : (l.map Prod.snd).Nodup := by
  induction l with
  | nil => simp
  | cons a t ih =>
    rcases List.nodup_cons.mp hnd with ⟨hat, ht⟩
    rw [List.map_cons]
    refine List.nodup_cons.mpr
      ⟨?_, ih (fun x hx => hconst x (List.mem_cons_of_mem _ hx)) ht⟩
    intro hc
    rcases List.mem_map.mp hc with ⟨x, hx, hxe⟩
    have hx1 : x.1 = e := hconst x (List.mem_cons_of_mem _ hx)
    have ha1 : a.1 = e := hconst a (List.mem_cons_self _ _)
    have hxa : x = a := by
      calc x = (x.1, x.2) := rfl
        _ = (a.1, a.2) := by rw [hx1, ha1, hxe]
        _ = a := rfl
    exact hat (hxa ▸ hx)

/-!
## Backtest metric lemmas
-/

theorem keysA_appendA_sub {β : Type} (l : List (String × List β)) (key : String)
    (v : β) : ∀ k ∈ keysA (appendA l key v), k ∈ keysA l ∨ k = key := by
  induction l with
  | nil =>
    intro k hk
    right
    simpa [appendA, keysA] using hk
  | cons hd t ih =>
    obtain ⟨k1, vs⟩ := hd
    intro k hk
    by_cases h1 : k1 = key
    · subst h1
      rw [show appendA ((k1, vs) :: t) k1 v = (k1, vs ++ [v]) :: t by
        simp [appendA]] at hk
      rw [keysA_cons] at hk ⊢
      exact Or.inl hk
    · rw [show appendA ((k1, vs) :: t) key v = (k1, vs) :: appendA t key v by
        simp [appendA, h1]] at hk
      rw [keysA_cons] at hk
      rcases List.mem_cons.mp hk with heq | hk
      · left
        rw [keysA_cons, heq]
        exact List.mem_cons_self _ _
      · rcases ih k hk with h | h
        · left
          rw [keysA_cons]
          exact List.mem_cons_of_mem _ h
        · right
          exact h

theorem groupByModel_keys (preds : List ModelPrediction) :
    ∀ k ∈ keysA (EnsembleCombiner.groupByModel preds),
      ∃ pr ∈ preds, pr.model_name = k := by
  induction preds using List.reverseRecOn with
  | nil =>
    intro k hk
    simp [EnsembleCombiner.groupByModel, keysA] at hk
  | append_singleton ps p ih =>
    intro k hk
    have hstep : EnsembleCombiner.groupByModel (ps ++ [p]) =
        appendA (EnsembleCombiner.groupByModel ps) p.model_name p.score := by
      unfold EnsembleCombiner.groupByModel
      rw [List.foldl_append]
      rfl
    rw [hstep] at hk
    rcases keysA_appendA_sub _ _ _ k hk with h | h
    · rcases ih k h with ⟨pr, hpr, he⟩
      exact ⟨pr, List.mem_append_left _ hpr, he⟩
    · exact ⟨p, List.mem_append_right _ (List.mem_cons_self _ _), h.symm⟩

theorem aggregateStatistics_keys (c : EnsembleCombiner)
    (preds : List ModelPrediction) :
    ∀ k ∈ keysA (c.aggregateStatistics preds),
      ∃ pr ∈ preds, pr.model_name = k := by
  intro k hk
  unfold EnsembleCombiner.aggregateStatistics at hk
  rcases (mem_keysA_iff _ _).mp hk with ⟨q, hq, hqe⟩
  rcases List.mem_map.mp hq with ⟨q0, hq0, rfl⟩
  have hq0' : q0 ∈ EnsembleCombiner.groupByModel preds := (List.mem_filter.mp hq0).1
  rcases groupByModel_keys preds q0.1 ((mem_keysA_iff _ _).mpr ⟨q0, hq0', rfl⟩)
    with ⟨pr, hpr, hname⟩
  exact ⟨pr, hpr, by rw [hname]; exact hqe⟩

theorem generatePredictions_names (p : InsiderDetectionPipeline)
    (fvs : List FeatureVector) :
    ∀ pr ∈ p.generatePredictions fvs,
      ∃ w ∈ p.model_zoo.iterModels, pr.model_name = w.name := by
  unfold InsiderDetectionPipeline.generatePredictions
  refine foldl_invariant
    (fun acc : List ModelPrediction =>
      ∀ pr ∈ acc, ∃ w ∈ p.model_zoo.iterModels, pr.model_name = w.name)
    _ fvs [] (by simp) ?_
  intro acc fv hacc pr hpr
  rcases List.mem_append.mp hpr with h | h
  · exact hacc pr h
  · rcases List.mem_map.mp h with ⟨w, hw, rfl⟩
    exact ⟨w, hw, rfl⟩

/-!
## Claim theorems
-/

/-- Claim C2: for every entity with a non-empty breakdown,
EnsembleCombiner.combine produces the unweighted mean when no weights
are configured, otherwise the applicable-weight-normalised weighted sum,
falling back to the unweighted mean when the applicable total weight is
zero; with no weights scores A=0.2, B=0.8 combine to 0.5, and with
weights A=1, B=0 the result is 0.2. -/
theorem C2_weighted_average_formula :
    (∀ (c : EnsembleCombiner) (preds : List ModelPrediction) (r : EnsembleScore),
      r ∈ c.combine preds → r.breakdown ≠ [] →
      (c.weights = [] → r.score = mean (r.breakdown.map Prod.snd)) ∧
      (c.weights ≠ [] →
        ((r.breakdown.map (fun p => (lookupA c.weights p.1).getD 0)).sum = 0 →
          r.score = mean (r.breakdown.map Prod.snd)) ∧
        ((r.breakdown.map (fun p => (lookupA c.weights p.1).getD 0)).sum ≠ 0 →
          r.score =
            (r.breakdown.map (fun p => (lookupA c.weights p.1).getD 0 * p.2)).sum /
              (r.breakdown.map (fun p => (lookupA c.weights p.1).getD 0)).sum))) ∧
    (EnsembleCombiner.mk []).combine
        [⟨"A", "e", 1/5, []⟩, ⟨"B", "e", 4/5, []⟩] =
      [⟨"e", 1/2, [("A", 1/5), ("B", 4/5)]⟩] ∧
    (EnsembleCombiner.mk [("A", 1), ("B", 0)]).combine
        [⟨"A", "e", 1/5, []⟩, ⟨"B", "e", 4/5, []⟩] =
      [⟨"e", 1/5, [("A", 1/5), ("B", 4/5)]⟩] := by
  refine ⟨?_, ?concrete1, ?concrete2⟩
  case concrete1 =>
    simp [EnsembleCombiner.combine, EnsembleCombiner.groupPredictions,
      EnsembleCombiner.weightedAverage, insertA, lookupA, mean] <;> norm_num
  case concrete2 =>
    simp [EnsembleCombiner.combine, EnsembleCombiner.groupPredictions,
      EnsembleCombiner.weightedAverage, insertA, lookupA, mean] <;> norm_num
  intro c preds r hr hne
  have hscore : r.score = c.weightedAverage r.breakdown := by
    rcases List.mem_map.mp hr with ⟨p, _, rfl⟩
    rfl
  constructor
  · intro hw
    rw [hscore]
    simp [EnsembleCombiner.weightedAverage, hne, hw]
  · intro hw
    constructor
    · intro htw
      rw [hscore]
      simp [EnsembleCombiner.weightedAverage, hne, hw, htw]
    · intro htw
      rw [hscore]
      simp [EnsembleCombiner.weightedAverage, hne, hw, htw]

/-- Claim C2 witness: the general formula applied to the concrete
no-weights run. -/
theorem C2_weighted_average_formula_witness :
    (⟨"e", 1/2, [("A", 1/5), ("B", 4/5)]⟩ : EnsembleScore).score =
      mean ([("A", (1 : ℚ)/5), ("B", 4/5)].map Prod.snd) := by
  have h := (C2_weighted_average_formula.1 ⟨[]⟩
    [⟨"A", "e", 1/5, []⟩, ⟨"B", "e", 4/5, []⟩]
    ⟨"e", 1/2, [("A", 1/5), ("B", 4/5)]⟩
    (by simp [EnsembleCombiner.combine, EnsembleCombiner.groupPredictions,
      EnsembleCombiner.weightedAverage, insertA, lookupA, mean] <;> norm_num)
    (by simp)).1 rfl
  exact h

/-- Claim C4: with the default thresholds, severity is critical iff the
score is at least 0.9, else high iff at least 0.7, else medium iff at
least 0.5, else info; the six boundary scores classify as stated; and no
alert returned by create_alerts carries severity info. -/
theorem C4_severity_boundaries :
    (∀ s : ℚ,
      ((AlertDispatcher.mk (9/10) (7/10) []).determineSeverity s = "critical" ↔
        9/10 ≤ s) ∧
      ((AlertDispatcher.mk (9/10) (7/10) []).determineSeverity s = "high" ↔
        7/10 ≤ s ∧ ¬ 9/10 ≤ s) ∧
      ((AlertDispatcher.mk (9/10) (7/10) []).determineSeverity s = "medium" ↔
        1/2 ≤ s ∧ ¬ 7/10 ≤ s) ∧
      ((AlertDispatcher.mk (9/10) (7/10) []).determineSeverity s = "info" ↔
        ¬ 1/2 ≤ s)) ∧
    ([(9 : ℚ)/10, 89999/100000, 7/10, 69999/100000, 1/2, 49999/100000].map
        (AlertDispatcher.mk (9/10) (7/10) []).determineSeverity =
      ["critical", "high", "high", "medium", "medium", "info"]) ∧
    (∀ (scores : List EnsembleScore) (a : Alert),
      a ∈ (AlertDispatcher.mk (9/10) (7/10) []).createAlerts scores →
      a.severity ≠ "info") := by
  refine ⟨?_, ?sixscores, ?_⟩
  case sixscores =>
    simp [AlertDispatcher.determineSeverity] <;> norm_num
  · intro s
    unfold AlertDispatcher.determineSeverity
    split_ifs with h1 h2 h3 <;>
      refine ⟨?_, ?_, ?_, ?_⟩ <;> simp_all <;> intros <;> linarith
  · intro scores
    suffices h : ∀ (acc : List Alert),
        (∀ a ∈ acc, a.severity ≠ "info") →
        ∀ a ∈ scores.foldl
          (fun alerts s =>
            let severity :=
              (AlertDispatcher.mk (9/10) (7/10) []).determineSeverity s.score
            if severity = "info" then alerts
            else alerts ++ [⟨s.entity_id, s.score, severity⟩]) acc,
          a.severity ≠ "info" by
      intro a ha
      exact h [] (by simp) a ha
    induction scores with
    | nil => intro acc hacc a ha; exact hacc a ha
    | cons hd t ih =>
      intro acc hacc a ha
      simp only [List.foldl_cons] at ha
      by_cases hsev :
          (AlertDispatcher.mk (9/10) (7/10) []).determineSeverity hd.score = "info"
      · exact ih acc hacc a (by simpa [hsev] using ha)
      · refine ih _ ?_ a (by simpa [hsev] using ha)
        intro b hb
        rcases List.mem_append.mp hb with hb | hb
        · exact hacc b hb
        · simp at hb
          subst hb
          exact hsev

/-- Claim C4 witness: the classification facts at score 0.95 and the
info-freeness of the concrete alert it generates. -/
theorem C4_severity_boundaries_witness :
    (⟨"e", 19/20, "critical"⟩ : Alert).severity ≠ "info" := by
  exact C4_severity_boundaries.2.2 [⟨"e", 19/20, []⟩] ⟨"e", 19/20, "critical"⟩
    (by simp [AlertDispatcher.createAlerts, AlertDispatcher.determineSeverity] <;>
      norm_num <;> decide)

/-- Claim C7: ModelZoo.register raises exactly when a model with the
wrapper's name is already registered, and in that case the registry is
untouched; on a fresh name it succeeds, the wrapper becomes retrievable
under its name, and every other entry is preserved. -/
theorem C7_register_unique_names :
    ∀ (zoo : ModelZoo) (w : ModelWrapper),
      ((zoo.register w).2.isSome ↔ (lookupA zoo.models w.name).isSome) ∧
      ((lookupA zoo.models w.name).isSome → (zoo.register w).1 = zoo) ∧
      (lookupA zoo.models w.name = none →
        (zoo.register w).2 = none ∧
        ((zoo.register w).1).get w.name = some w ∧
        ∀ n, n ≠ w.name →
          lookupA ((zoo.register w).1).models n = lookupA zoo.models n) := by
  intro zoo w
  by_cases h : (lookupA zoo.models w.name).isSome
  · refine ⟨by simp [ModelZoo.register, h], fun _ => by simp [ModelZoo.register, h],
      fun hnone => ?_⟩
    rw [hnone] at h
    simp at h
  · have hn : lookupA zoo.models w.name = none :=
      Option.not_isSome_iff_eq_none.mp h
    refine ⟨by simp [ModelZoo.register, h], fun hs => ?_, fun _ => ?_⟩
    · rw [hn] at hs
      simp at hs
    · refine ⟨by simp [ModelZoo.register, h], ?_, ?_⟩
      · show lookupA ((zoo.register w).1).models w.name = some w
        have hreg : (zoo.register w).1 = ⟨zoo.models ++ [(w.name, w)]⟩ := by
          simp [ModelZoo.register, h]
        rw [hreg, lookupA_append, hn]
        simp [lookupA]
      · intro n hne
        have hreg : (zoo.register w).1 = ⟨zoo.models ++ [(w.name, w)]⟩ := by
          simp [ModelZoo.register, h]
        rw [hreg, lookupA_append]
        cases hx : lookupA zoo.models n with
        | some v => rfl
        | none =>
          have hwn : ¬ w.name = n := fun hc => hne hc.symm
          simp [lookupA, hwn]

/-- Claim C7 witness: registering a wrapper named m into the empty
registry succeeds and makes it retrievable. -/
theorem C7_register_unique_names_witness :
    (((ModelZoo.mk []).register ⟨"m", ⟨"m", fun _ => 0⟩, none⟩).1).get "m" =
      some ⟨"m", ⟨"m", fun _ => 0⟩, none⟩ := by
  exact ((C7_register_unique_names ⟨[]⟩ ⟨"m", ⟨"m", fun _ => 0⟩, none⟩).2.2 rfl).2.1

/-- Claim C6: the avg_trade_size feature of each processed trade is the
exponential moving average with smoothing 0.5 of the account's sizes: it
equals the trade's size when the account has no history, and equals
half the previously stored average plus half the new size otherwise; a
first trade of size S1 followed by one of size S2 for the same account
yields averages S1 and then S1/2 + S2/2, and the computed vectors depend
on the processing order. -/
theorem C6_rolling_average_ema :
    (∀ (st : FeatureStore) (ts : List TradeEvent) (t : TradeEvent),
      (st.computeFeatures (ts ++ [t])).2 =
        (st.computeFeatures ts).2 ++
          [⟨t.account_id,
            [("avg_trade_size",
                ((st.computeFeatures ts).1).rollingAverage t.account_id t.size),
              ("profit_proxy", FeatureStore.profitProxy t),
              ("time_to_resolution_est", FeatureStore.timeToResolutionProxy t)],
            t.timestamp⟩]) ∧
    (∀ (st : FeatureStore) (acc : String) (s : ℚ),
      (lookupA st.storage acc).getD [] = [] → st.rollingAverage acc s = s) ∧
    (∀ (st : FeatureStore) (acc : String) (s prev : ℚ)
      (hist : List FeatureVector) (v : FeatureVector),
      lookupA st.storage acc = some hist → hist.getLast? = some v →
      lookupA v.features "avg_trade_size" = some prev →
      st.rollingAverage acc s = 1/2 * prev + 1/2 * s) ∧
    (∀ t1 t2 : TradeEvent, t1.account_id = t2.account_id →
      ((FeatureStore.mk []).computeFeatures [t1, t2]).2.map
          (fun v => lookupA v.features "avg_trade_size") =
        [some t1.size, some (1/2 * t1.size + 1/2 * t2.size)]) ∧
    (((FeatureStore.mk []).computeFeatures
        [⟨"t1", "A", "M", 0, "yes", 1, 0⟩, ⟨"t2", "A", "M", 0, "yes", 3, 0⟩]).2.map
          (fun v => lookupA v.features "avg_trade_size") =
        [some 1, some 2] ∧
      ((FeatureStore.mk []).computeFeatures
        [⟨"t1", "A", "M", 0, "yes", 3, 0⟩, ⟨"t2", "A", "M", 0, "yes", 1, 0⟩]).2.map
          (fun v => lookupA v.features "avg_trade_size") =
        [some 3, some 2]) ∧
    ((FeatureStore.mk []).computeFeatures
        [⟨"t1", "A", "M", 0, "yes", 1, 0⟩, ⟨"t2", "A", "M", 0, "yes", 3, 0⟩]).2 ≠
      ((FeatureStore.mk []).computeFeatures
        [⟨"t1", "A", "M", 0, "yes", 3, 0⟩, ⟨"t2", "A", "M", 0, "yes", 1, 0⟩]).2 := by
  refine ⟨?_, ?_, ?_, ?_, ⟨?_, ?_⟩, ?_⟩
  · intro st ts t
    simp [FeatureStore.computeFeatures, List.foldl_append, FeatureStore.computeOne]
  · intro st acc s h
    simp [FeatureStore.rollingAverage, h]
  · intro st acc s prev hist v hl hlast hp
    simp [FeatureStore.rollingAverage, hl, hlast, hp]
  · intro t1 t2 h
    simp [FeatureStore.computeFeatures, FeatureStore.computeOne,
      FeatureStore.rollingAverage, lookupA, appendA, h]
  · simp [FeatureStore.computeFeatures, FeatureStore.computeOne,
      FeatureStore.rollingAverage, lookupA, appendA] <;> norm_num
  · simp [FeatureStore.computeFeatures, FeatureStore.computeOne,
      FeatureStore.rollingAverage, lookupA, appendA] <;> norm_num
  · intro hc
    have hmap := congrArg
      (List.map (fun v : FeatureVector => lookupA v.features "avg_trade_size")) hc
    simp only [List.map] at hmap
    revert hmap
    simp [FeatureStore.computeFeatures, FeatureStore.computeOne,
      FeatureStore.rollingAverage, lookupA, appendA] <;> norm_num

/-- Claim C6 witness: the fresh-account and second-trade facts at a
concrete pair of trades of sizes 4 and 8. -/
theorem C6_rolling_average_ema_witness :
    ((FeatureStore.mk []).computeFeatures
        [⟨"t1", "A", "M", 0, "yes", 4, 0⟩, ⟨"t2", "A", "M", 10, "yes", 8, 0⟩]).2.map
      (fun v => lookupA v.features "avg_trade_size") =
      [some 4, some (1/2 * 4 + 1/2 * 8)] := by
  exact C6_rolling_average_ema.2.2.2.1
    ⟨"t1", "A", "M", 0, "yes", 4, 0⟩ ⟨"t2", "A", "M", 10, "yes", 8, 0⟩ rfl

/-- Claim C3: the co-trading weight is the stated product formula; a
same-market pair at or above the threshold creates a symmetric mutual
edge carrying the weight; a pair below the threshold creates no edge;
qualifying pairs between the same accounts accumulate by summation; a
same-outcome equal-size zero-gap pair weighs exactly 1, so the default
threshold 0.7 admits it and any threshold above 1 rejects it. -/
theorem C3_co_trading_weight_edges :
    (∀ (g : GraphModule) (a b : TradeEvent),
      g.coTradingWeight a b =
        (if a.outcome = b.outcome then (1 : ℚ) else 1/2) *
          (1 - |a.size - b.size| / max (max a.size b.size) 1) /
          (|a.timestamp - b.timestamp| + 1)) ∧
    (∀ (g : GraphModule) (t1 t2 : TradeEvent),
      t1.market_id = t2.market_id → t1.account_id ≠ t2.account_id →
      g.threshold ≤ g.coTradingWeight t1 t2 →
      g.buildWalletGraph [t1, t2] =
        [(t1.account_id,
          [⟨t1.account_id, t2.account_id, g.coTradingWeight t1 t2⟩]),
         (t2.account_id,
          [⟨t2.account_id, t1.account_id, g.coTradingWeight t1 t2⟩])]) ∧
    (∀ (g : GraphModule) (t1 t2 : TradeEvent),
      t1.market_id = t2.market_id →
      g.coTradingWeight t1 t2 < g.threshold →
      g.buildWalletGraph [t1, t2] = []) ∧
    (∀ (g : GraphModule) (t1 t2 t3 t4 : TradeEvent),
      t1.market_id = t2.market_id → t3.market_id = t4.market_id →
      t1.market_id ≠ t3.market_id →
      t3.account_id = t1.account_id → t4.account_id = t2.account_id →
      t1.account_id ≠ t2.account_id →
      g.threshold ≤ g.coTradingWeight t1 t2 →
      g.threshold ≤ g.coTradingWeight t3 t4 →
      g.buildWalletGraph [t1, t2, t3, t4] =
        [(t1.account_id,
          [⟨t1.account_id, t2.account_id,
            g.coTradingWeight t1 t2 + g.coTradingWeight t3 t4⟩]),
         (t2.account_id,
          [⟨t2.account_id, t1.account_id,
            g.coTradingWeight t1 t2 + g.coTradingWeight t3 t4⟩])]) ∧
    (∀ (g : GraphModule) (a b : TradeEvent),
      a.outcome = b.outcome → a.size = b.size → a.timestamp = b.timestamp →
      g.coTradingWeight a b = 1) ∧
    (∀ t1 t2 : TradeEvent,
      t1.market_id = t2.market_id → t1.account_id ≠ t2.account_id →
      t1.outcome = t2.outcome → t1.size = t2.size → t1.timestamp = t2.timestamp →
      (GraphModule.mk (7/10)).buildWalletGraph [t1, t2] =
        [(t1.account_id, [⟨t1.account_id, t2.account_id, 1⟩]),
         (t2.account_id, [⟨t2.account_id, t1.account_id, 1⟩])] ∧
      ∀ th : ℚ, 1 < th → (GraphModule.mk th).buildWalletGraph [t1, t2] = []) := by
  have hweight1 : ∀ (g : GraphModule) (a b : TradeEvent),
      a.outcome = b.outcome → a.size = b.size → a.timestamp = b.timestamp →
      g.coTradingWeight a b = 1 := by
    intro g a b ho hs ht
    simp [GraphModule.coTradingWeight, ho, hs, ht]
  have hedge : ∀ (g : GraphModule) (t1 t2 : TradeEvent),
      t1.market_id = t2.market_id → t1.account_id ≠ t2.account_id →
      g.threshold ≤ g.coTradingWeight t1 t2 →
      g.buildWalletGraph [t1, t2] =
        [(t1.account_id,
          [⟨t1.account_id, t2.account_id, g.coTradingWeight t1 t2⟩]),
         (t2.account_id,
          [⟨t2.account_id, t1.account_id, g.coTradingWeight t1 t2⟩])] := by
    intro g t1 t2 hm hacc hthr
    simp [GraphModule.buildWalletGraph, GraphModule.buildAdjacency,
      GraphModule.groupByMarket, GraphModule.tradePairs, GraphModule.addPair,
      addWeight, bumpA, appendA, keysA, hm, hacc, hthr]
  have hnoedge : ∀ (g : GraphModule) (t1 t2 : TradeEvent),
      t1.market_id = t2.market_id →
      g.coTradingWeight t1 t2 < g.threshold →
      g.buildWalletGraph [t1, t2] = [] := by
    intro g t1 t2 hm hlt
    have hthr : ¬ g.threshold ≤ g.coTradingWeight t1 t2 := not_le.mpr hlt
    simp [GraphModule.buildWalletGraph, GraphModule.buildAdjacency,
      GraphModule.groupByMarket, GraphModule.tradePairs, GraphModule.addPair,
      appendA, hm, hthr]
  refine ⟨fun g a b => rfl, hedge, hnoedge, ?_, hweight1, ?_⟩
  · intro g t1 t2 t3 t4 hm12 hm34 hmm ha31 ha42 hacc hw1 hw2
    have hmm' : ¬ t1.market_id = t3.market_id := hmm
    have hmm2 : ¬ t2.market_id = t4.market_id := by
      rw [← hm12, ← hm34]
      exact hmm
    simp [GraphModule.buildWalletGraph, GraphModule.buildAdjacency,
      GraphModule.groupByMarket, GraphModule.tradePairs, GraphModule.addPair,
      addWeight, bumpA, appendA, hm12, hm34, hmm', hmm2, ha31, ha42, hacc, hw1, hw2]
  · intro t1 t2 hm hacc ho hs ht
    constructor
    · have hthr : (GraphModule.mk (7/10)).threshold ≤
          (GraphModule.mk (7/10)).coTradingWeight t1 t2 := by
        rw [hweight1 (GraphModule.mk (7/10)) t1 t2 ho hs ht]
        norm_num
      rw [hedge (GraphModule.mk (7/10)) t1 t2 hm hacc hthr,
        hweight1 (GraphModule.mk (7/10)) t1 t2 ho hs ht]
    · intro th hth
      refine hnoedge (GraphModule.mk th) t1 t2 hm ?_
      rw [hweight1 (GraphModule.mk th) t1 t2 ho hs ht]
      exact hth

/-- Claim C3 witness: the mutual edge and threshold facts at a concrete
same-market same-outcome equal-size zero-gap pair of trades. -/
theorem C3_co_trading_weight_edges_witness :
    (GraphModule.mk (7/10)).buildWalletGraph
        [⟨"t1", "A", "M", 0, "yes", 10, 1/2⟩, ⟨"t2", "B", "M", 0, "yes", 10, 1/2⟩] =
      [("A", [⟨"A", "B", 1⟩]), ("B", [⟨"B", "A", 1⟩])] := by
  have h := (C3_co_trading_weight_edges.2.2.2.2.2
    ⟨"t1", "A", "M", 0, "yes", 10, 1/2⟩ ⟨"t2", "B", "M", 0, "yes", 10, 1/2⟩
    rfl (by simp) rfl rfl rfl).1
  exact h

/-- Claim C10: a qualifying pair of same-market trades by one account
creates a self-edge whose weight is accumulated twice (once per
symmetric update), and detect_communities then emits that account as a
singleton community. -/
theorem C10_self_edge_singleton :
    ∀ (g : GraphModule) (t1 t2 : TradeEvent),
      t1.account_id = t2.account_id → t1.market_id = t2.market_id →
      g.threshold ≤ g.coTradingWeight t1 t2 →
      g.buildWalletGraph [t1, t2] =
        [(t1.account_id,
          [⟨t1.account_id, t1.account_id, 2 * g.coTradingWeight t1 t2⟩])] ∧
      g.detectCommunities (g.buildWalletGraph [t1, t2]) = [[t1.account_id]] := by
  intro g t1 t2 hacc hm hthr
  have hgraph : g.buildWalletGraph [t1, t2] =
      [(t1.account_id,
        [⟨t1.account_id, t1.account_id, 2 * g.coTradingWeight t1 t2⟩])] := by
    have hacc' : t2.account_id = t1.account_id := hacc.symm
    simp [GraphModule.buildWalletGraph, GraphModule.buildAdjacency,
      GraphModule.groupByMarket, GraphModule.tradePairs, GraphModule.addPair,
      addWeight, bumpA, appendA, hm, hacc', hthr]
    ring
  refine ⟨hgraph, ?_⟩
  rw [hgraph]
  simp [GraphModule.detectCommunities, GraphModule.allNodes, keysA,
    GraphModule.communitiesLoop, GraphModule.bfsLoop, GraphModule.scanNeighbors,
    lookupA]

/-- Claim C10 witness: the self-edge and singleton community at a
concrete pair of same-account trades. -/
theorem C10_self_edge_singleton_witness :
    (GraphModule.mk (7/10)).detectCommunities
        ((GraphModule.mk (7/10)).buildWalletGraph
          [⟨"t1", "A", "M", 0, "yes", 10, 1/2⟩, ⟨"t2", "A", "M", 0, "yes", 10, 1/2⟩]) =
      [["A"]] := by
  have h := (C10_self_edge_singleton (GraphModule.mk (7/10))
    ⟨"t1", "A", "M", 0, "yes", 10, 1/2⟩ ⟨"t2", "A", "M", 0, "yes", 10, 1/2⟩
    rfl rfl (by norm_num [GraphModule.coTradingWeight])).2
  exact h

/-- Claim C1 counterexample: with accounts A and B joined by a
qualifying edge and C isolated, detect_communities returns exactly ONE
community, not two as the claim asserts: the singleton list holding
the set containing A and B. -/
theorem C1_exactly_two_counterexample :
    (GraphModule.mk (7/10)).detectCommunities
        ((GraphModule.mk (7/10)).buildWalletGraph
          [⟨"t1", "A", "M", 0, "yes", 10, 1/2⟩, ⟨"t2", "B", "M", 0, "yes", 10, 1/2⟩,
           ⟨"t3", "C", "M", 1000000, "yes", 10, 1/2⟩]) = [["A", "B"]] ∧
    ((GraphModule.mk (7/10)).detectCommunities
        ((GraphModule.mk (7/10)).buildWalletGraph
          [⟨"t1", "A", "M", 0, "yes", 10, 1/2⟩, ⟨"t2", "B", "M", 0, "yes", 10, 1/2⟩,
           ⟨"t3", "C", "M", 1000000, "yes", 10, 1/2⟩])).length ≠ 2 := by
  have h : (GraphModule.mk (7/10)).detectCommunities
      ((GraphModule.mk (7/10)).buildWalletGraph
        [⟨"t1", "A", "M", 0, "yes", 10, 1/2⟩, ⟨"t2", "B", "M", 0, "yes", 10, 1/2⟩,
         ⟨"t3", "C", "M", 1000000, "yes", 10, 1/2⟩]) = [["A", "B"]] := by
    norm_num +decide [GraphModule.detectCommunities, GraphModule.buildWalletGraph,
      GraphModule.buildAdjacency, GraphModule.groupByMarket, GraphModule.tradePairs,
      GraphModule.addPair, GraphModule.coTradingWeight, addWeight, bumpA, appendA,
      GraphModule.allNodes, keysA, GraphModule.communitiesLoop, GraphModule.bfsLoop,
      GraphModule.scanNeighbors, lookupA]
  exact ⟨h, by rw [h]; simp⟩

/-- Claim C1 (amended): in the A-B-C scenario detect_communities returns
exactly one community, the set containing A and B, and isolated C
appears in no community; in general the returned communities are
pairwise disjoint and together cover exactly the nodes that have at
least one edge in the adjacency mapping. -/
theorem C1_communities_partition :
    (∀ (g : GraphModule) (trades : List TradeEvent),
      ((g.detectCommunities (g.buildWalletGraph trades)).join).Nodup ∧
      List.Pairwise (fun c d => ∀ x ∈ c, x ∉ d)
        (g.detectCommunities (g.buildWalletGraph trades)) ∧
      (∀ x, (∃ c ∈ g.detectCommunities (g.buildWalletGraph trades), x ∈ c) ↔
        ∃ es, lookupA (g.buildWalletGraph trades) x = some es ∧ es ≠ [])) ∧
    (GraphModule.mk (7/10)).detectCommunities
        ((GraphModule.mk (7/10)).buildWalletGraph
          [⟨"t1", "A", "M", 0, "yes", 10, 1/2⟩, ⟨"t2", "B", "M", 0, "yes", 10, 1/2⟩,
           ⟨"t3", "C", "M", 1000000, "yes", 10, 1/2⟩]) = [["A", "B"]] := by
  constructor
  · intro g trades
    obtain ⟨hwf, hne⟩ := buildWalletGraph_wf g trades
    obtain ⟨h1, h2, h3⟩ := detectCommunities_spec g (g.buildWalletGraph trades) hwf
    refine ⟨h1, nodup_join_pairwise _ h1, ?_⟩
    intro x
    constructor
    · rintro ⟨c, hc, hxc⟩
      have hx : x ∈ keysA (g.buildWalletGraph trades) :=
        (h3 x).mp (List.mem_join.mpr ⟨c, hc, hxc⟩)
      have hs := lookupA_isSome_of_mem _ _ hx
      cases hlk : lookupA (g.buildWalletGraph trades) x with
      | none =>
        rw [hlk] at hs
        simp at hs
      | some es =>
        exact ⟨es, rfl, hne (x, es) (mem_of_lookupA_eq_some _ _ _ hlk)⟩
    · rintro ⟨es, hlk, _⟩
      have hx : x ∈ keysA (g.buildWalletGraph trades) :=
        mem_keysA_of_lookupA_isSome _ _ (by rw [hlk]; rfl)
      exact List.mem_join.mp ((h3 x).mpr hx)
  · norm_num +decide [GraphModule.detectCommunities, GraphModule.buildWalletGraph,
      GraphModule.buildAdjacency, GraphModule.groupByMarket, GraphModule.tradePairs,
      GraphModule.addPair, GraphModule.coTradingWeight, addWeight, bumpA, appendA,
      GraphModule.allNodes, keysA, GraphModule.communitiesLoop, GraphModule.bfsLoop,
      GraphModule.scanNeighbors, lookupA]

/-- Claim C1 witness: the cover property applied at node A of the
concrete A-B-C scenario. -/
theorem C1_communities_partition_witness :
    ∃ es, lookupA ((GraphModule.mk (7/10)).buildWalletGraph
        [⟨"t1", "A", "M", 0, "yes", 10, 1/2⟩, ⟨"t2", "B", "M", 0, "yes", 10, 1/2⟩,
         ⟨"t3", "C", "M", 1000000, "yes", 10, 1/2⟩]) "A" = some es ∧ es ≠ [] := by
  refine ((C1_communities_partition.1 (GraphModule.mk (7/10))
    [⟨"t1", "A", "M", 0, "yes", 10, 1/2⟩, ⟨"t2", "B", "M", 0, "yes", 10, 1/2⟩,
     ⟨"t3", "C", "M", 1000000, "yes", 10, 1/2⟩]).2.2 "A").mp ?_
  refine ⟨["A", "B"], ?_, by simp⟩
  rw [C1_communities_partition.2]
  simp

/-- Claim C9: when several predictions share the same (entity, model)
pair, only the score of the last one in iteration order survives in that
entity's breakdown — each dict write overwrites — and the combined score
is the weighted average of that deduplicated breakdown; concretely, two
predictions of model m for entity e scoring 0.2 then 0.9 combine to the
single breakdown entry 0.9. -/
theorem C9_last_duplicate_wins :
    (∀ (preds : List ModelPrediction) (e m : String),
      lookupA ((lookupA (EnsembleCombiner.groupPredictions preds) e).getD []) m =
        lastPredScore preds e m) ∧
    (∀ (c : EnsembleCombiner) (preds : List ModelPrediction) (r : EnsembleScore),
      r ∈ c.combine preds →
      r.score = c.weightedAverage r.breakdown ∧
      ∀ m, lookupA r.breakdown m = lastPredScore preds r.entity_id m) ∧
    (EnsembleCombiner.mk []).combine
        [⟨"m", "e", 1/5, []⟩, ⟨"m", "e", 9/10, []⟩] =
      [⟨"e", 9/10, [("m", 9/10)]⟩] ∧
    (∀ (p : InsiderDetectionPipeline) (v1 v2 : FeatureVector),
      p.generatePredictions [v1, v2] =
        p.model_zoo.iterModels.map (fun w => w.predict v1) ++
          p.model_zoo.iterModels.map (fun w => w.predict v2)) ∧
    (∀ (w : ModelWrapper) (v : FeatureVector),
      (w.predict v).entity_id = v.entity_id ∧ (w.predict v).model_name = w.name) := by
  refine ⟨groupPredictions_lookup_last, ?_, ?_, ?_, fun w v => ⟨rfl, rfl⟩⟩
  · intro c preds r hr
    rcases List.mem_map.mp hr with ⟨pr, hpr, rfl⟩
    refine ⟨rfl, ?_⟩
    intro m
    have hlk : lookupA (EnsembleCombiner.groupPredictions preds) pr.1 = some pr.2 :=
      lookupA_of_mem_nodupKeys _ _ _ (nodupKeys_groupPredictions preds)
        (by rw [show (pr.1, pr.2) = pr from rfl]; exact hpr)
    have h := groupPredictions_lookup_last preds pr.1 m
    rw [hlk] at h
    simpa using h
  · simp [EnsembleCombiner.combine, EnsembleCombiner.groupPredictions,
      EnsembleCombiner.weightedAverage, insertA, lookupA, mean] <;> norm_num
  · intro p v1 v2
    simp [InsiderDetectionPipeline.generatePredictions]

/-- Claim C9 witness: the last-wins breakdown fact applied to the
concrete duplicated predictions. -/
theorem C9_last_duplicate_wins_witness :
    lookupA ((⟨"e", 9/10, [("m", 9/10)]⟩ : EnsembleScore).breakdown) "m" =
      lastPredScore [⟨"m", "e", 1/5, []⟩, ⟨"m", "e", 9/10, []⟩] "e" "m" := by
  refine (C9_last_duplicate_wins.2.1 ⟨[]⟩
    [⟨"m", "e", 1/5, []⟩, ⟨"m", "e", 9/10, []⟩]
    ⟨"e", 9/10, [("m", 9/10)]⟩ ?_).2 "m"
  rw [C9_last_duplicate_wins.2.2.1]
  simp

/-- Claim C5: ensembling is commutative over model order: for inputs
holding at most one prediction per (entity, model) pair, any permutation
of the predictions yields the same per-entity combined score and the
same per-entity breakdown mapping. -/
theorem C5_combine_commutative :
    ∀ (c : EnsembleCombiner) (p1 p2 : List ModelPrediction),
      p1.Perm p2 →
      (p1.map (fun p => (p.entity_id, p.model_name))).Nodup →
      ∀ e : String,
        combinedScore c p1 e = combinedScore c p2 e ∧
        ∀ m : String, breakdownScore c p1 e m = breakdownScore c p2 e m := by
  intro c p1 p2 hperm hnd e
  have hnd2 : (p2.map (fun p => (p.entity_id, p.model_name))).Nodup :=
    ((hperm.map _).nodup_iff).mp hnd
  have hfilter : (p1.filter (fun p => p.entity_id = e)).Perm
      (p2.filter (fun p => p.entity_id = e)) := hperm.filter _
  have hl1 := groupPredictions_lookup_filter p1 hnd e
  have hl2 := groupPredictions_lookup_filter p2 hnd2 e
  by_cases hempty : p1.filter (fun p => p.entity_id = e) = []
  · have hempty2 : p2.filter (fun p => p.entity_id = e) = [] := by
      rw [hempty] at hfilter
      exact hfilter.nil_eq.symm
    rw [if_pos hempty] at hl1
    rw [if_pos hempty2] at hl2
    constructor
    · unfold combinedScore EnsembleCombiner.combine
      rw [find?_combine, find?_combine, hl1, hl2]
    · intro m
      unfold breakdownScore EnsembleCombiner.combine
      rw [find?_combine, find?_combine, hl1, hl2]
  · have hempty2 : ¬ p2.filter (fun p => p.entity_id = e) = [] := by
      intro hc
      rw [hc] at hfilter
      exact hempty hfilter.eq_nil
    rw [if_neg hempty] at hl1
    rw [if_neg hempty2] at hl2
    have hmapperm : ((p1.filter (fun p => p.entity_id = e)).map
        (fun p => (p.model_name, p.score))).Perm
        ((p2.filter (fun p => p.entity_id = e)).map
          (fun p => (p.model_name, p.score))) := hfilter.map _
    have hndk : (keysA ((p1.filter (fun p => p.entity_id = e)).map
        (fun p => (p.model_name, p.score)))).Nodup := by
      have hpairs : ((p1.filter (fun p => p.entity_id = e)).map
          (fun p => (p.entity_id, p.model_name))).Nodup :=
        hnd.sublist ((List.filter_sublist _).map _)
      have hconst : ∀ x ∈ (p1.filter (fun p => p.entity_id = e)).map
          (fun p => (p.entity_id, p.model_name)), x.1 = e := by
        intro x hx
        rcases List.mem_map.mp hx with ⟨q, hq, rfl⟩
        simpa using (List.mem_filter.mp hq).2
      have hsnd := nodup_snd_of_const_fst _ e hconst hpairs
      have hkeq : keysA ((p1.filter (fun p => p.entity_id = e)).map
          (fun p => (p.model_name, p.score))) =
          ((p1.filter (fun p => p.entity_id = e)).map
            (fun p => (p.entity_id, p.model_name))).map Prod.snd := by
        simp [keysA, List.map_map]
      rw [hkeq]
      exact hsnd
    have hwavg : c.weightedAverage ((p1.filter (fun p => p.entity_id = e)).map
        (fun p => (p.model_name, p.score))) =
        c.weightedAverage ((p2.filter (fun p => p.entity_id = e)).map
          (fun p => (p.model_name, p.score))) := weightedAverage_perm c _ _ hmapperm
    constructor
    · unfold combinedScore EnsembleCombiner.combine
      rw [find?_combine, find?_combine, hl1, hl2]
      simp only [Option.map_some']
      rw [hwavg]
    · intro m
      unfold breakdownScore EnsembleCombiner.combine
      rw [find?_combine, find?_combine, hl1, hl2]
      simp only [Option.bind_some, Option.map_some']
      exact lookupA_perm_nodupKeys _ _ hndk hmapperm m

/-- Claim C5 witness: swapping two predictions of distinct models for
one entity leaves the combined score and breakdown unchanged. -/
theorem C5_combine_commutative_witness :
    combinedScore ⟨[]⟩ [⟨"A", "e", 1/5, []⟩, ⟨"B", "e", 4/5, []⟩] "e" =
      combinedScore ⟨[]⟩ [⟨"B", "e", 4/5, []⟩, ⟨"A", "e", 1/5, []⟩] "e" := by
  exact (C5_combine_commutative ⟨[]⟩
    [⟨"A", "e", 1/5, []⟩, ⟨"B", "e", 4/5, []⟩]
    [⟨"B", "e", 4/5, []⟩, ⟨"A", "e", 1/5, []⟩]
    (List.Perm.swap _ _ _) (by simp) "e").1

/-- Claim C8 counterexample: a model registered under the name
communities_detected makes that metrics key present even though no
Coordination Graph module is configured, so the claimed iff fails. -/
theorem C8_metric_key_counterexample :
    let w : ModelWrapper :=
      ⟨"communities_detected", ⟨"communities_detected", fun _ => 1/2⟩, none⟩
    let p : InsiderDetectionPipeline :=
      { data_ingestion := ⟨[]⟩, feature_store := ⟨[]⟩,
        model_zoo := ⟨[("communities_detected", w)]⟩,
        ensemble := ⟨[]⟩, alert_dispatcher := {} }
    p.graph_module = none ∧
    lookupA (p.runBacktest [⟨"t1", "A", "M", 0, "yes", 1, 0⟩]).2
      "communities_detected" = some (1/2) := by
  refine ⟨rfl, ?_⟩
  norm_num +decide [InsiderDetectionPipeline.runBacktest,
    InsiderDetectionPipeline.enrichWithSequences,
    InsiderDetectionPipeline.generatePredictions,
    InsiderDetectionPipeline.runAnomalyDetectors,
    FeatureStore.computeFeatures, FeatureStore.computeOne,
    FeatureStore.rollingAverage, FeatureStore.profitProxy,
    FeatureStore.timeToResolutionProxy, appendA, lookupA, insertA,
    ModelZoo.iterModels, ModelWrapper.predict,
    EnsembleCombiner.aggregateStatistics, EnsembleCombiner.groupByModel, mean]

/-- Claim C8 (amended): run_backtest returns a metrics mapping and never
touches the alert state; provided no registered model is named
communities_detected or avg_anomaly_score, the communities_detected key
is present iff a graph module is configured (then holding the community
count), the avg_anomaly_score key is present iff an anomaly module is
configured and produced at least one score (then holding the mean
anomaly score), and every other key carries exactly the per-model mean
scores of aggregate_statistics. -/
theorem C8_backtest_metrics :
    ∀ (p : InsiderDetectionPipeline) (ts : List TradeEvent),
      ((p.runBacktest ts).1.alerts = p.alerts ∧
        (p.runBacktest ts).1.alert_dispatcher = p.alert_dispatcher) ∧
      ((∀ w ∈ p.model_zoo.iterModels,
          w.name ≠ "communities_detected" ∧ w.name ≠ "avg_anomaly_score") →
        ((lookupA (p.runBacktest ts).2 "communities_detected").isSome ↔
          p.graph_module.isSome) ∧
        (∀ gm, p.graph_module = some gm →
          lookupA (p.runBacktest ts).2 "communities_detected" =
            some ((gm.detectCommunities (gm.buildWalletGraph ts)).length : ℚ)) ∧
        ((lookupA (p.runBacktest ts).2 "avg_anomaly_score").isSome ↔
          p.anomaly_module.isSome ∧
            p.runAnomalyDetectors (p.enrichWithSequences ts
              (p.feature_store.computeFeatures ts).2) ≠ []) ∧
        (p.runAnomalyDetectors (p.enrichWithSequences ts
            (p.feature_store.computeFeatures ts).2) ≠ [] →
          lookupA (p.runBacktest ts).2 "avg_anomaly_score" =
            some (((p.runAnomalyDetectors (p.enrichWithSequences ts
                (p.feature_store.computeFeatures ts).2)).map AnomalyScore.score).sum /
              (p.runAnomalyDetectors (p.enrichWithSequences ts
                (p.feature_store.computeFeatures ts).2)).length)) ∧
        (∀ name, name ≠ "communities_detected" → name ≠ "avg_anomaly_score" →
          lookupA (p.runBacktest ts).2 name =
            lookupA (p.ensemble.aggregateStatistics (p.generatePredictions
              (p.enrichWithSequences ts
                (p.feature_store.computeFeatures ts).2))) name)) := by
  intro p ts
  refine ⟨⟨rfl, rfl⟩, ?_⟩
  intro hname
  have hcd_ne_avg : ("communities_detected" : String) ≠ "avg_anomaly_score" := by
    decide
  have hkeys : ∀ k ∈ keysA (p.ensemble.aggregateStatistics (p.generatePredictions
      (p.enrichWithSequences ts (p.feature_store.computeFeatures ts).2))),
      k ≠ "communities_detected" ∧ k ≠ "avg_anomaly_score" := by
    intro k hk
    rcases aggregateStatistics_keys _ _ k hk with ⟨pr, hpr, hprname⟩
    rcases generatePredictions_names _ _ pr hpr with ⟨w, hw, hwname⟩
    have hw' := hname w hw
    constructor
    · intro hc
      exact hw'.1 (by rw [← hwname, hprname, hc])
    · intro hc
      exact hw'.2 (by rw [← hwname, hprname, hc])
  have hcd0 : lookupA (p.ensemble.aggregateStatistics (p.generatePredictions
      (p.enrichWithSequences ts (p.feature_store.computeFeatures ts).2)))
      "communities_detected" = none :=
    lookupA_eq_none_of_not_mem _ _ (fun hc => (hkeys _ hc).1 rfl)
  have has0 : lookupA (p.ensemble.aggregateStatistics (p.generatePredictions
      (p.enrichWithSequences ts (p.feature_store.computeFeatures ts).2)))
      "avg_anomaly_score" = none :=
    lookupA_eq_none_of_not_mem _ _ (fun hc => (hkeys _ hc).2 rfl)
  cases hgm : p.graph_module with
  | none =>
    by_cases hs : p.runAnomalyDetectors (p.enrichWithSequences ts
        (p.feature_store.computeFeatures ts).2) = []
    · have hrb : (p.runBacktest ts).2 =
          p.ensemble.aggregateStatistics (p.generatePredictions
            (p.enrichWithSequences ts (p.feature_store.computeFeatures ts).2)) := by
        simp [InsiderDetectionPipeline.runBacktest, hgm, hs]
      refine ⟨?_, ?_, ?_, ?_, ?_⟩
      · rw [hrb, hcd0]
        simp
      · intro gm hg
        exact absurd hg (by simp)
      · rw [hrb, has0]
        simp [hs]
      · intro hc
        exact absurd hs hc
      · intro name _ _
        rw [hrb]
    · have hrb : (p.runBacktest ts).2 =
          insertA (p.ensemble.aggregateStatistics (p.generatePredictions
            (p.enrichWithSequences ts (p.feature_store.computeFeatures ts).2)))
            "avg_anomaly_score"
            (((p.runAnomalyDetectors (p.enrichWithSequences ts
                (p.feature_store.computeFeatures ts).2)).map AnomalyScore.score).sum /
              (p.runAnomalyDetectors (p.enrichWithSequences ts
                (p.feature_store.computeFeatures ts).2)).length) := by
        simp [InsiderDetectionPipeline.runBacktest, hgm, hs]
      have hmod : p.anomaly_module.isSome := by
        cases ham : p.anomaly_module with
        | none =>
          exact absurd (by simp [InsiderDetectionPipeline.runAnomalyDetectors, ham]) hs
        | some m => simp
      refine ⟨?_, ?_, ?_, ?_, ?_⟩
      · rw [hrb, lookupA_insertA_ne _ _ _ _ hcd_ne_avg, hcd0]
        simp
      · intro gm hg
        exact absurd hg (by simp)
      · rw [hrb, lookupA_insertA_self]
        simp [hs, hmod]
      · intro _
        rw [hrb, lookupA_insertA_self]
      · intro name _ hnavg
        rw [hrb, lookupA_insertA_ne _ _ _ _ hnavg]
  | some gm =>
    by_cases hs : p.runAnomalyDetectors (p.enrichWithSequences ts
        (p.feature_store.computeFeatures ts).2) = []
    · have hrb : (p.runBacktest ts).2 =
          insertA (p.ensemble.aggregateStatistics (p.generatePredictions
            (p.enrichWithSequences ts (p.feature_store.computeFeatures ts).2)))
            "communities_detected"
            ((gm.detectCommunities (gm.buildWalletGraph ts)).length : ℚ) := by
        simp [InsiderDetectionPipeline.runBacktest, hgm, hs]
      refine ⟨?_, ?_, ?_, ?_, ?_⟩
      · rw [hrb, lookupA_insertA_self]
        simp
      · intro gm' hg
        injection hg with hg
        subst hg
        rw [hrb, lookupA_insertA_self]
      · rw [hrb, lookupA_insertA_ne _ _ _ _ (fun hc => hcd_ne_avg hc.symm), has0]
        simp [hs]
      · intro hc
        exact absurd hs hc
      · intro name hncd _
        rw [hrb, lookupA_insertA_ne _ _ _ _ hncd]
    · have hrb : (p.runBacktest ts).2 =
          insertA (insertA (p.ensemble.aggregateStatistics (p.generatePredictions
            (p.enrichWithSequences ts (p.feature_store.computeFeatures ts).2)))
            "communities_detected"
            ((gm.detectCommunities (gm.buildWalletGraph ts)).length : ℚ))
            "avg_anomaly_score"
            (((p.runAnomalyDetectors (p.enrichWithSequences ts
                (p.feature_store.computeFeatures ts).2)).map AnomalyScore.score).sum /
              (p.runAnomalyDetectors (p.enrichWithSequences ts
                (p.feature_store.computeFeatures ts).2)).length) := by
        simp [InsiderDetectionPipeline.runBacktest, hgm, hs]
      have hmod : p.anomaly_module.isSome := by
        cases ham : p.anomaly_module with
        | none =>
          exact absurd (by simp [InsiderDetectionPipeline.runAnomalyDetectors, ham]) hs
        | some m => simp
      refine ⟨?_, ?_, ?_, ?_, ?_⟩
      · rw [hrb, lookupA_insertA_ne _ _ _ _ hcd_ne_avg, lookupA_insertA_self]
        simp
      · intro gm' hg
        injection hg with hg
        subst hg
        rw [hrb, lookupA_insertA_ne _ _ _ _ hcd_ne_avg, lookupA_insertA_self]
      · rw [hrb, lookupA_insertA_self]
        simp [hs, hmod]
      · intro _
        rw [hrb, lookupA_insertA_self]
      · intro name hncd hnavg
        rw [hrb, lookupA_insertA_ne _ _ _ _ hnavg, lookupA_insertA_ne _ _ _ _ hncd]

/-- Claim C8 witness: the amended metric-key facts at a concrete
pipeline with one honestly-named model, no graph module and no anomaly
module. -/
theorem C8_backtest_metrics_witness :
    let p : InsiderDetectionPipeline :=
      { data_ingestion := ⟨[]⟩, feature_store := ⟨[]⟩,
        model_zoo := ⟨[("m", ⟨"m", ⟨"m", fun _ => 1/2⟩, none⟩)]⟩,
        ensemble := ⟨[]⟩, alert_dispatcher := {} }
    (lookupA (p.runBacktest [⟨"t1", "A", "M", 0, "yes", 1, 0⟩]).2
        "communities_detected").isSome ↔ p.graph_module.isSome := by
  intro p
  exact ((C8_backtest_metrics p [⟨"t1", "A", "M", 0, "yes", 1, 0⟩]).2
    (by
      intro w hw
      simp [ModelZoo.iterModels, p] at hw
      simp [hw])).1

end InsiderDetection
